import Mathlib

/-!
# Currywurst: cash register, orders, terminals and workers

A shallow embedding of the Go packages `internal/cashregister`, `pkg`,
`internal/orders`, `internal/terminals` and `internal/workers`, followed
by theorems about them.  Calls are run by one goroutine at a time: a call
that waits for another goroutine has the outcome `blocks`.

Go's `int` is modelled as a mathematical integer together with an explicit
two's-complement wrap-around to 64 bits (`wrapInt`) after every arithmetic
operation that can leave the range.  Go maps from `int` to `int` that are only
read and written by key (`stocks`) are total functions with default `0`; the
map that is iterated over (`returned`) is an association list of its entries.
-/

namespace Currywurst

/-! ## Go integers -/

/-- The 64-bit two's-complement value that Go's `int` arithmetic stores for the
mathematical result `x`. -/
def wrapInt (x : Int) : Int :=
  (x + 9223372036854775808) % 18446744073709551616 - 9223372036854775808

/-- The values a Go `int` can hold. -/
def isInt64 (x : Int) : Prop :=
  -9223372036854775808 ≤ x ∧ x < 9223372036854775808

instance (x : Int) : Decidable (isInt64 x) := by
  unfold isInt64; infer_instance

/-- Rendering of the verb `%d` of `fmt.Sprintf` for an `int`. -/
def fmtD (n : Int) : String := toString n

/-- The values of Go's `error` interface that the packages create: the
sentinel errors of `cashregister`, `orders` and `terminals`, the custom error
`*orders.ErrInvalidOrder` and the error `NewTerminal` formats.  The `nil` error
is `none : Option GoError`. -/
inductive GoError where
  | ErrNotEnoughChange
  | ErrInvalidPayment
  | ErrInvalidOrderType
  | ErrOrderWithInvalidCtx
  | ErrOrderTimeout
  | ErrOrderCancelled
  | ErrOrderNil
  | ErrInvalidOrder (inserted price : Int)
  | ErrTerminalNil
  | ErrTerminalFull
  | ErrTerminalEmpty
  | ErrTerminalClosed
  | invalidCapacity (capacity : Int)
deriving DecidableEq, Repr

/-- How a call ends when it is run by a single goroutine: it returns, it panics,
or it waits for another goroutine and so never returns on its own. -/
inductive Outcome (α : Type) where
  | ret (a : α)
  | panics
  | blocks
deriving DecidableEq, Repr

namespace cashregister

/-! ## internal/cashregister -/

/-- The amount of money returned to the customer. -/
structure ReturnedAmount where
  Cents : Int
  Formatted : String
deriving DecidableEq, Repr

/-- The zero value `ReturnedAmount{}`. -/
def ReturnedAmount.empty : ReturnedAmount := ⟨0, ""⟩

/-- The denominations of notes and coins in cents, highest first. -/
def denominations : List Int :=
  [5000, 2000, 1000, 500, 200, 100, 50, 20, 10, 5, 2, 1]

/-- A value of the package-level map `stocks`: lookup by key, `0` for a key that
is absent. -/
abbrev Stocks := Int → Int

/-- The initial stock: ten pieces of every denomination. -/
def stocks : Stocks := fun d => if d ∈ denominations then 10 else 0

/-- A value of a `map[int]int` that is iterated over: its entries, keys distinct. -/
abbrev IntMap := List (Int × Int)

/-- The assignment `m[k] = v` on a map. -/
def mapSet (m : IntMap) (k v : Int) : IntMap :=
  m.filter (fun e => decide (e.1 ≠ k)) ++ [(k, v)]

/-- The variables the loop of `Pay` reads and writes. -/
structure LoopState where
  amount : Int
  stocks : Stocks
  returned : IntMap

/-- One run of the body of the loop of `Pay`, after the `amount == 0` test. -/
def payStep (denom : Int) (s : LoopState) : LoopState :=
  let quantity := wrapInt (s.amount.tdiv denom)
  if quantity ≤ s.stocks denom then
    { returned := mapSet s.returned denom quantity
      stocks := Function.update s.stocks denom (wrapInt (s.stocks denom - quantity))
      amount := wrapInt (s.amount - wrapInt (quantity * denom)) }
  else
    { returned := mapSet s.returned denom (s.stocks denom)
      amount := wrapInt (s.amount - wrapInt (s.stocks denom * denom))
      stocks := Function.update s.stocks denom 0 }

/-- The loop `for _, denom := range denominations` of `Pay`, with its `break`. -/
def payLoop : List Int → LoopState → LoopState
  | [], s => s
  | denom :: rest, s => if s.amount = 0 then s else payLoop rest (payStep denom s)

/-- The accumulation `cents += denom * quantity` over the entries of a map. -/
def sumCents (stock : IntMap) : Int :=
  stock.foldl (fun cents e => wrapInt (cents + wrapInt (e.1 * e.2))) 0

/-- The function `stockToCentsAndReadable`. -/
def stockToCentsAndReadable (stock : IntMap) : Int × String :=
  let cents := sumCents stock
  let euros := wrapInt (cents.tdiv 100)
  let remainingCents := cents.tmod 100
  let result := ""
  let result := if euros > 0 then result ++ (fmtD euros ++ " Euro") else result
  let result :=
    if remainingCents > 0 then
      (if euros > 0 then result ++ " and " else result) ++ (fmtD remainingCents ++ " Cent")
    else result
  (cents, result)

/-- What a call of `Pay` leaves behind: the two returned values and the stock. -/
structure PayOutcome where
  returned : ReturnedAmount
  err : Option GoError
  stocks : Stocks

/-- The method `CashRegister.Pay`, run on the stock `st`. -/
def Pay (st : Stocks) (price inserted : Int) : PayOutcome :=
  if (price ≤ 0 ∨ inserted ≤ 0) ∨ inserted < price then
    ⟨ReturnedAmount.empty, some GoError.ErrInvalidPayment, st⟩
  else
    let amount := wrapInt (inserted - price)
    if amount = 0 then
      ⟨⟨0, ""⟩, none, st⟩
    else
      let s := payLoop denominations ⟨amount, st, []⟩
      if s.amount ≠ 0 then
        ⟨ReturnedAmount.empty, some GoError.ErrNotEnoughChange, s.stocks⟩
      else
        let r := stockToCentsAndReadable s.returned
        ⟨⟨r.1, r.2⟩, none, s.stocks⟩

/-- The stock after a sequence of `Pay` calls, given as (price, inserted) pairs. -/
def payAll (st : Stocks) : List (Int × Int) → Stocks
  | [] => st
  | c :: cs => payAll (Pay st c.1 c.2).stocks cs

/-! ### Vocabulary of the claims -/

/-- The Euro/Cent rendering of an amount of cents, as the specification words it. -/
def euroCentRendering (cents : Int) : String :=
  let E := cents / 100
  let C := cents % 100
  if cents = 0 then ""
  else if C = 0 then fmtD E ++ " Euro"
  else if E = 0 then fmtD C ++ " Cent"
  else fmtD E ++ " Euro and " ++ fmtD C ++ " Cent"

/-- A selection `sel` of pieces (a count per denomination) that is available in
the stock `st` and has face value `a`. -/
def isSelection (st : Stocks) (sel : Int → Int) (a : Int) : Prop :=
  (∀ d ∈ denominations, 0 ≤ sel d ∧ sel d ≤ st d) ∧
    (denominations.map (fun d => sel d * d)).sum = a

/-- The number of pieces of a selection. -/
def pieces (sel : Int → Int) : Int := (denominations.map sel).sum

/-- The pieces a call removed from the stock: the decrease per denomination. -/
def removed (before after : Stocks) : Int → Int := fun d => before d - after d

instance (st : Stocks) (sel : Int → Int) (a : Int) : Decidable (isSelection st sel a) := by
  unfold isSelection; infer_instance

/-- A stock whose counts are non-negative Go integers. -/
def stockNonneg (st : Stocks) : Prop :=
  ∀ d, 0 ≤ st d ∧ st d < 9223372036854775808

/-- A loop state whose amount and stock counts are non-negative Go integers. -/
def LoopState.nonneg (s : LoopState) : Prop :=
  (0 ≤ s.amount ∧ s.amount < 9223372036854775808) ∧
    ∀ d, 0 ≤ s.stocks d ∧ s.stocks d < 9223372036854775808

/-- The total `sum of denomination times quantity` of a map, as a mathematical
integer. -/
def faceValue (m : IntMap) : Int := (m.map (fun e => e.1 * e.2)).sum

/-- Payments with small change that use up coins of the fresh stock: ten times
change 10, ten times change 5 and nine times change 50. -/
def smallChangeCalls : List (Int × Int) :=
  List.replicate 10 (1, 11) ++ List.replicate 10 (1, 6) ++ List.replicate 9 (1, 51)

/-- The stock after `smallChangeCalls`: no 10 and 5 cent coins and a single
50 cent coin are left, all other denominations still hold ten pieces. -/
def stockAfterSmallChange : Stocks := payAll stocks smallChangeCalls

/-- The stock after `smallChangeCalls`, ten payments with change 2 and ten with
change 1: the 10, 5, 2 and 1 cent coins are used up and a single 50 cent coin
is left. -/
def stockWithoutSmallCoins : Stocks :=
  payAll stockAfterSmallChange (List.replicate 10 (1, 3) ++ List.replicate 10 (1, 2))

/-- The selection of three 20 cent coins. -/
def threeTwenties : Int → Int := fun d => if d = 20 then 3 else 0

/-- Whether the test `quantity <= stocks[denom]` of the loop of `Pay` succeeds
every time the body of the loop runs: no denomination's stock limits the
greedy pass. -/
def neverLimited : List Int → LoopState → Bool
  | [], _ => true
  | denom :: rest, s =>
    if s.amount = 0 then true
    else decide (wrapInt (s.amount.tdiv denom) ≤ s.stocks denom)
      && neverLimited rest (payStep denom s)

/-- A multiset of the fixed denominations, given by a count per denomination,
that sums to `a`. -/
def isChangeFor (sel : Int → Int) (a : Int) : Prop :=
  (∀ d ∈ denominations, 0 ≤ sel d) ∧ (denominations.map (fun d => sel d * d)).sum = a

instance (sel : Int → Int) (a : Int) : Decidable (isChangeFor sel a) := by
  unfold isChangeFor; infer_instance

/-- The number of pieces of a greedy pass that no stock limits: the quotient
for each denomination in turn, continuing with the remainder. -/
def greedyPieces : List Int → Int → Int
  | [], _ => 0
  | d :: rest, a => a / d + greedyPieces rest (a % d)

/-- The number of pieces the greedy pass takes from 5, 2 and 1 for `r`. -/
def fewest125 (r : Int) : Int := r / 5 + r % 5 / 2 + r % 5 % 2

/-- The number of pieces of the greedy pass, decimal digit by decimal digit: the
lowest `k` digits with 5, 2 and 1 times their power of ten, the rest of the
number with 5, 2 and 1 times `10 ^ k`. -/
def levelPieces : Nat → Int → Int
  | 0, a => fewest125 a
  | k + 1, a => levelPieces k (a / 10) + fewest125 (a % 10)

/-- The denominations 5, 2 and 1 times the powers of ten up to `10 ^ k`. -/
def levelDenominations : Nat → List Int
  | 0 => [5, 2, 1]
  | k + 1 => (levelDenominations k).map (fun d => d * 10) ++ [5, 2, 1]

/-- The selection of 88 one cent coins. -/
def eightyEightCents : Int → Int := fun d => if d = 1 then 88 else 0

end cashregister

namespace pkg

/-! ## pkg -/

/-- The implementations of the interface `OrderType`: `Vegan{}` and `NonVegan{}`. -/
inductive OrderType where
  | Vegan
  | NonVegan
deriving DecidableEq, Repr

/-- The method `Name`. -/
def OrderType.Name : OrderType → String
  | Vegan => "vegan"
  | NonVegan => "non-vegan"

/-- The method `Price`. -/
def OrderType.Price : OrderType → Int
  | Vegan => 30
  | NonVegan => 35

/-- The map `validOrderTypes`, as its entries. -/
def validOrderTypes : List (String × OrderType) :=
  [("vegan", OrderType.Vegan), ("non-vegan", OrderType.NonVegan)]

/-- The function `GetOrderType`: `none` is the `nil` interface value. -/
def GetOrderType (name : String) : Option OrderType :=
  validOrderTypes.lookup name

end pkg

namespace orders

/-! ## internal/orders -/

/-- The struct `OrderStatus`.  `Ready` is a channel with a buffer of one value:
the list holds what was sent and not yet received. -/
structure OrderStatus where
  Ready : List Bool
  Error : Option GoError
  Returned : cashregister.ReturnedAmount
deriving DecidableEq, Repr

/-- The struct `Order`.  `ctx` is `none` for a nil context and `some b` for a
context whose `Done()` channel is closed exactly when `b` is true; `cancel`
tells whether the cancel function is non-nil; `OrderType` is the string
underlying `orders.OrderType`. -/
structure Order where
  status : OrderStatus
  ctx : Option Bool
  cancel : Bool
  OrderType : String
  Inserted : Int
deriving DecidableEq, Repr

/-- The constants `Vegan` and `NonVegan` of `types.go`. -/
def Vegan : String := "vegan"

/-- The constant `NonVegan` of `types.go`. -/
def NonVegan : String := "non-vegan"

/-- The function `NewOrder`; `parentDone` tells whether the parent context is
already done, which the derived context inherits. -/
def NewOrder (parentDone : Bool) (inserted : Int) (orderType : String) : Order :=
  { ctx := some parentDone
    cancel := true
    Inserted := inserted
    OrderType := orderType
    status := { Ready := [], Error := none, Returned := cashregister.ReturnedAmount.empty } }

/-- A value of type `*Order`: `none` is the nil pointer, `some p` points to the
order stored at `p` in the heap. -/
abbrev OrderPtr := Option Nat

/-- The orders that pointers refer to. -/
abbrev Heap := Nat → Order

/-- What a method with receiver `*Order` that only reads the order sees. -/
def deref (h : Heap) (o : OrderPtr) : Option Order := o.map h

/-- The method `Order.IsCancelled`; calling `Done()` on a nil context panics. -/
def Order.IsCancelled (o : Option Order) : Outcome (Bool × Option GoError) :=
  match o with
  | none => Outcome.ret (false, some GoError.ErrOrderNil)
  | some o =>
    match o.ctx with
    | none => Outcome.panics
    | some true => Outcome.ret (true, none)
    | some false => Outcome.ret (false, none)

/-- The method `Order.Validate`. -/
def Order.Validate (o : Option Order) : Option GoError :=
  match o with
  | none => some GoError.ErrOrderNil
  | some o =>
    match pkg.GetOrderType o.OrderType with
    | none => some GoError.ErrInvalidOrderType
    | some orderType =>
      if o.Inserted < orderType.Price then
        some (GoError.ErrInvalidOrder o.Inserted orderType.Price)
      else none

end orders

namespace terminals

/-! ## internal/terminals -/

open orders

/-- A buffered channel of `*orders.Order`: the queued values, oldest first, and
the buffer size given to `make`. -/
structure Chan where
  buf : List OrderPtr
  cap : Nat
deriving DecidableEq, Repr

/-- The struct `Terminal` (without its mutex and condition variable).  `orders`
is `none` for the nil channel; `done` tells whether the channel `done` is
closed. -/
structure Terminal where
  orders : Option Chan
  done : Bool
  capacity : Int
deriving DecidableEq, Repr

/-- The built-in `len` on the channel `t.orders`; a nil channel has length 0. -/
def Terminal.len (t : Terminal) : Int :=
  match t.orders with
  | none => 0
  | some ch => ch.buf.length

/-- The function `NewTerminal`. -/
def NewTerminal (capacity : Int) : Option Terminal × Option GoError :=
  if capacity < 0 then (none, some (GoError.invalidCapacity capacity))
  else (some { orders := some { buf := [], cap := capacity.toNat }, done := false,
               capacity := capacity }, none)

/-- The method `Terminal.IsClosed`. -/
def Terminal.IsClosed (t : Option Terminal) : Bool × Option GoError :=
  match t with
  | none => (false, some GoError.ErrTerminalNil)
  | some t => (t.done, none)

/-- The method `Terminal.Put`, run by one goroutine with no other goroutine
around.  `pickDone` is the runtime's choice in the `select` when both the
receive from `done` and the send to `orders` are ready. -/
def Terminal.Put (t : Option Terminal) (order : OrderPtr) (pickDone : Bool) :
    Outcome (Option GoError) × Option Terminal :=
  match t with
  | none => (Outcome.ret (some GoError.ErrTerminalNil), none)
  | some t =>
    match order with
    | none => (Outcome.ret (some GoError.ErrOrderNil), some t)
    | some p =>
      if t.len = t.capacity then (Outcome.blocks, some t)
      else
        let sendReady : Option Chan :=
          match t.orders with
          | none => none
          | some ch => if ch.buf.length < ch.cap then some ch else none
        match t.done, sendReady with
        | true, none => (Outcome.ret (some GoError.ErrTerminalClosed), some t)
        | true, some ch =>
          if pickDone then (Outcome.ret (some GoError.ErrTerminalClosed), some t)
          else (Outcome.ret none, some { t with orders := some { ch with buf := ch.buf ++ [some p] } })
        | false, some ch =>
          (Outcome.ret none, some { t with orders := some { ch with buf := ch.buf ++ [some p] } })
        | false, none => (Outcome.ret (some GoError.ErrTerminalFull), some t)

/-- The method `Terminal.Get`, run by one goroutine with no other goroutine
around, on the heap `h`. -/
def Terminal.Get (h : Heap) (t : Option Terminal) :
    Outcome (OrderPtr × Option GoError) × Option Terminal :=
  match t with
  | none => (Outcome.ret (none, some GoError.ErrTerminalNil), none)
  | some t =>
    if t.done then (Outcome.ret (none, some GoError.ErrTerminalClosed), some t)
    else
      match t.orders with
      | none => (Outcome.blocks, some t)
      | some ch =>
        match ch.buf with
        | [] => (Outcome.blocks, some t)
        | order :: rest =>
          let t1 : Terminal := { t with orders := some { ch with buf := rest } }
          match order with
          | none => (Outcome.ret (none, some GoError.ErrOrderNil), some t1)
          | some p =>
            match Order.IsCancelled (some (h p)) with
            | Outcome.ret (cancelled, err) =>
              if cancelled && err.isNone then
                (Outcome.ret (some p, some GoError.ErrOrderCancelled), some t1)
              else if err.isSome then (Outcome.ret (none, err), some t1)
              else (Outcome.ret (some p, none), some t1)
            | Outcome.panics => (Outcome.panics, some t1)
            | Outcome.blocks => (Outcome.blocks, some t1)

/-- The method `Terminal.Close`. -/
def Terminal.Close (t : Option Terminal) : Option GoError × Option Terminal :=
  match t with
  | none => (some GoError.ErrTerminalNil, none)
  | some t =>
    if t.done then (some GoError.ErrTerminalClosed, some t)
    else (none, some { t with done := true, orders := none })

/-- A single producer putting the given orders one after another, each call
with the runtime's choice for its `select`: the outcomes of the calls and the
terminal afterwards.  A call that does not return ends the run. -/
def putAll (t : Option Terminal) :
    List (OrderPtr × Bool) → List (Outcome (Option GoError)) × Option Terminal
  | [] => ([], t)
  | c :: cs =>
    match Terminal.Put t c.1 c.2 with
    | (Outcome.ret e, t1) => ((Outcome.ret e) :: (putAll t1 cs).1, (putAll t1 cs).2)
    | (out, t1) => ([out], t1)

/-- A single consumer calling `Get` the given number of times: the outcomes of
the calls and the terminal afterwards.  A call that does not return ends the
run. -/
def getN (h : Heap) (t : Option Terminal) :
    Nat → List (Outcome (OrderPtr × Option GoError)) × Option Terminal
  | 0 => ([], t)
  | n + 1 =>
    match Terminal.Get h t with
    | (Outcome.ret r, t1) => ((Outcome.ret r) :: (getN h t1 n).1, (getN h t1 n).2)
    | (out, t1) => ([out], t1)

/-- An open terminal of capacity `c` as `NewTerminal` builds it, holding the
queue `q`. -/
def openTerminal (c : Int) (q : List OrderPtr) : Terminal :=
  { orders := some { buf := q, cap := c.toNat }, done := false, capacity := c }

/-- The heap of `Test_PutGetOrder`: three orders with inserted amounts 45, 50
and 10 at the addresses 0, 1 and 2. -/
def putGetHeap : Heap := fun p =>
  match p with
  | 0 => NewOrder false 45 Vegan
  | 1 => NewOrder false 50 NonVegan
  | _ => NewOrder false 10 NonVegan

/-- The number of orders queued in a terminal. -/
def queued (t : Option Terminal) : Int :=
  match t with
  | none => 0
  | some t => t.len

/-- The shape of the terminals that calls of `Put`, `Get` and `Close` make out
of `NewTerminal(c)`: either closed with the nil channel, or open with a channel
of buffer size `c` that holds at most `c` orders. -/
def madeBy (c : Int) (t : Option Terminal) : Prop :=
  ∃ tt, t = some tt ∧ tt.capacity = c ∧
    ((tt.done = true ∧ tt.orders = none) ∨
      (tt.done = false ∧ ∃ ch, tt.orders = some ch ∧ ch.cap = c.toNat ∧ ch.buf.length ≤ ch.cap))

/-- A call on a terminal: `Put` of an order with the runtime's choice for its
`select`, `Get` on the heap as it is at that moment, or `Close`. -/
inductive TerminalOp where
  | put (order : OrderPtr) (pickDone : Bool)
  | get (h : Heap)
  | close

/-- The terminal after one call. -/
def applyOp (t : Option Terminal) : TerminalOp → Option Terminal
  | TerminalOp.put order pickDone => (Terminal.Put t order pickDone).2
  | TerminalOp.get h => (Terminal.Get h t).2
  | TerminalOp.close => (Terminal.Close t).2

/-- The terminal after a sequence of calls. -/
def runOps (t : Option Terminal) (ops : List TerminalOp) : Option Terminal :=
  ops.foldl applyOp t

end terminals

namespace orders

/-- The method `Order.Cancel` on the heap `h`. -/
def Order.Cancel (h : Heap) (o : OrderPtr) : Option GoError × Heap :=
  match o with
  | none => (some GoError.ErrOrderNil, h)
  | some p =>
    if (h p).ctx = none ∨ (h p).cancel = false then (some GoError.ErrOrderWithInvalidCtx, h)
    else (none, Function.update h p { h p with ctx := some true })

/-- The method `Order.WaitWithTimeout` at one moment of its `select`: the
results of the cases that are ready, any of which the runtime may pick.
`timerFired` tells whether the timer has expired; the empty list means the
call keeps waiting. -/
def Order.WaitWithTimeout (o : Option Order) (timerFired : Bool) :
    Outcome (List (Option GoError)) :=
  match o with
  | none => Outcome.ret [some GoError.ErrOrderNil]
  | some o =>
    match o.ctx with
    | none => Outcome.panics
    | some done =>
      Outcome.ret
        ((if timerFired then [some GoError.ErrOrderTimeout] else []) ++
          (if done then [some GoError.ErrOrderCancelled] else []) ++
          (if o.status.Ready ≠ [] then [none] else []))

end orders

namespace workers

/-! ## internal/workers -/

open orders terminals cashregister

/-- What the loop of `Worker.Run` works on: the orders in memory, the terminal
the worker points to (`none` for a nil pointer), the cash register pointer
(`none` for nil) and the package-level stock of the cash register. -/
structure World where
  heap : Heap
  terminal : Option Terminal
  cr : Option Unit
  stocks : Stocks

/-- How one iteration of the loop ends: with the next iteration, with the
return of `Run`, with a panic, or waiting for another goroutine. -/
inductive LoopStep where
  | continues (w : World)
  | returns (w : World)
  | panics (w : World)
  | blocks (w : World)

/-- Where the statement `switch err` leaves the iteration.  A case without
statements ends the switch, Go has no implicit fall-through. -/
inductive SwitchExit where
  | proceed
  | returns
  | continues
deriving DecidableEq, Repr

/-- The statement `switch err` of `Worker.Run`. -/
def switchErr (err : Option GoError) : SwitchExit :=
  match err with
  | some GoError.ErrTerminalNil => SwitchExit.proceed
  | some GoError.ErrTerminalClosed => SwitchExit.returns
  | some GoError.ErrOrderNil => SwitchExit.proceed
  | some GoError.ErrOrderCancelled => SwitchExit.proceed
  | some GoError.ErrTerminalEmpty => SwitchExit.continues
  | _ => SwitchExit.proceed

/-- The assignment `order.Error = err`. -/
def setError (h : Heap) (p : Nat) (err : Option GoError) : Heap :=
  Function.update h p { h p with status := { (h p).status with Error := err } }

/-- The assignment `order.Returned = returned`. -/
def setReturned (h : Heap) (p : Nat) (returned : ReturnedAmount) : Heap :=
  Function.update h p { h p with status := { (h p).status with Returned := returned } }

/-- The send `order.Ready <- v` on the channel with a buffer of one value:
`none` when the buffer is full and the send waits. -/
def sendReady (h : Heap) (p : Nat) (v : Bool) : Option Heap :=
  if (h p).status.Ready.length < 1 then
    some (Function.update h p
      { h p with status := { (h p).status with Ready := (h p).status.Ready ++ [v] } })
  else none

/-- One iteration of the loop of `Worker.Run`. -/
def iteration (w : World) : LoopStep :=
  match Terminal.Get w.heap w.terminal with
  | (Outcome.panics, t1) => LoopStep.panics { w with terminal := t1 }
  | (Outcome.blocks, t1) => LoopStep.blocks { w with terminal := t1 }
  | (Outcome.ret (order, err), t1) =>
    let w1 : World := { w with terminal := t1 }
    match switchErr err with
    | SwitchExit.returns => LoopStep.returns w1
    | SwitchExit.continues => LoopStep.continues w1
    | SwitchExit.proceed =>
      match Order.Validate (deref w1.heap order), order with
      | _, none => LoopStep.panics w1
      | some verr, some p =>
        let h2 := setError w1.heap p (some verr)
        match sendReady h2 p false with
        | none => LoopStep.blocks { w1 with heap := h2 }
        | some h3 => LoopStep.continues { w1 with heap := h3 }
      | none, some p =>
        match Order.IsCancelled (some (w1.heap p)) with
        | Outcome.panics => LoopStep.panics w1
        | Outcome.blocks => LoopStep.blocks w1
        | Outcome.ret (orderCancelled, orderErr) =>
          if orderCancelled && orderErr.isNone then LoopStep.continues w1
          else if (Terminal.IsClosed w1.terminal).1 && (Terminal.IsClosed w1.terminal).2.isNone then
            LoopStep.returns w1
          else
            match pkg.GetOrderType (w1.heap p).OrderType with
            | none => LoopStep.panics w1
            | some orderType =>
              let out := Pay w1.stocks orderType.Price (w1.heap p).Inserted
              let w2 : World := { w1 with stocks := out.stocks }
              match out.err with
              | some err =>
                let h2 := setError w2.heap p (some err)
                match sendReady h2 p false with
                | none => LoopStep.blocks { w2 with heap := h2 }
                | some h3 => LoopStep.continues { w2 with heap := h3 }
              | none =>
                match sendReady w2.heap p false with
                | none => LoopStep.blocks w2
                | some h3 => LoopStep.continues { w2 with heap := setReturned h3 p out.returned }

/-- The world in which a worker finds one order, created by `NewOrder` and not
cancelled, put into a fresh terminal of capacity 1, with the fresh stock of
the cash register. -/
def oneOrderWorld (inserted : Int) (orderType : String) : World :=
  { heap := fun _ => NewOrder false inserted orderType
    terminal := (Terminal.Put (NewTerminal 1).1 (some 0) false).2
    cr := some ()
    stocks := cashregister.stocks }

/-- The world of `oneOrderWorld` after the customer cancelled the order: the
order is cancelled after `Put` and before the worker runs. -/
def cancelledOrderWorld (inserted : Int) (orderType : String) : World :=
  { oneOrderWorld inserted orderType with
    heap := (Order.Cancel (oneOrderWorld inserted orderType).heap (some 0)).2 }

/-- The world in which a step ends. -/
def LoopStep.world : LoopStep → World
  | LoopStep.continues w => w
  | LoopStep.returns w => w
  | LoopStep.panics w => w
  | LoopStep.blocks w => w

/-- Whether a step ends with the next iteration. -/
def LoopStep.isContinue : LoopStep → Bool
  | LoopStep.continues _ => true
  | _ => false

/-- Whether a step ends with a panic. -/
def LoopStep.isPanic : LoopStep → Bool
  | LoopStep.panics _ => true
  | _ => false

/-- A world in which the queue of the worker's terminal holds a nil order, the
case for which `Get` keeps its check `order == nil`. -/
def nilOrderWorld : World :=
  { heap := fun _ => NewOrder false 50 Vegan
    terminal := some (openTerminal 1 [none])
    cr := some ()
    stocks := cashregister.stocks }

/-- A world in which the worker's terminal pointer is nil. -/
def nilTerminalWorld : World :=
  { nilOrderWorld with terminal := none }

end workers

namespace cashregister

/-! ### Go integers: wrap-around facts -/

theorem wrapInt_of_isInt64 {x : Int} (h : isInt64 x) : wrapInt x = x := by
  unfold isInt64 at h
  unfold wrapInt
  omega

theorem isInt64_wrapInt (x : Int) : isInt64 (wrapInt x) := by
  unfold isInt64 wrapInt
  omega

theorem wrapInt_emod (x : Int) :
    wrapInt x % 18446744073709551616 = x % 18446744073709551616 := by
  unfold wrapInt
  omega

theorem eq_of_emod_eq_of_isInt64 {x y : Int} (hx : isInt64 x) (hy : isInt64 y)
    (h : x % 18446744073709551616 = y % 18446744073709551616) : x = y := by
  unfold isInt64 at hx hy
  omega

/-! ### Maps that are iterated over -/

theorem mapSet_fresh (m : IntMap) (k v : Int) (h : ∀ e ∈ m, e.1 ≠ k) :
    mapSet m k v = m ++ [(k, v)] := by
  unfold mapSet
  congr 1
  rw [List.filter_eq_self]
  intro e he
  simpa using h e he

theorem mem_mapSet {m : IntMap} {k v : Int} {e : Int × Int} (h : e ∈ mapSet m k v) :
    e ∈ m ∨ e = (k, v) := by
  unfold mapSet at h
  rcases List.mem_append.1 h with h1 | h1
  · exact Or.inl (List.mem_filter.1 h1).1
  · exact Or.inr (by simpa using h1)

theorem sumCents_append_one (m : IntMap) (k v : Int) :
    sumCents (m ++ [(k, v)]) = wrapInt (sumCents m + wrapInt (k * v)) := by
  simp [sumCents, List.foldl_append]

theorem isInt64_sumCents (m : IntMap) : isInt64 (sumCents m) := by
  induction m using List.reverseRecOn with
  | nil => simp [sumCents, isInt64]
  | append_singleton m e _ =>
    obtain ⟨k, v⟩ := e
    rw [sumCents_append_one]
    exact isInt64_wrapInt _

theorem faceValue_append_one (m : IntMap) (k v : Int) :
    faceValue (m ++ [(k, v)]) = faceValue m + k * v := by
  simp [faceValue]

/-- The accumulated cents are the wrapped-around total of the map. -/
theorem sumCents_eq_wrapInt (m : IntMap) : sumCents m = wrapInt (faceValue m) := by
  induction m using List.reverseRecOn with
  | nil => decide
  | append_singleton m e ih =>
    obtain ⟨k, v⟩ := e
    rw [sumCents_append_one, faceValue_append_one, ih]
    generalize faceValue m = a
    generalize k * v = x
    unfold wrapInt
    omega

/-- The result of `stockToCentsAndReadable` does not depend on the order in
which the entries of the map are visited. -/
theorem stockToCentsAndReadable_perm (m1 m2 : IntMap) (h : m1.Perm m2) :
    stockToCentsAndReadable m1 = stockToCentsAndReadable m2 := by
  have hs : sumCents m1 = sumCents m2 := by
    rw [sumCents_eq_wrapInt, sumCents_eq_wrapInt]
    unfold faceValue
    rw [(h.map _).sum_eq]
  unfold stockToCentsAndReadable
  rw [hs]

/-! ### The loop of `Pay`: what it returns, modulo wrap-around -/

theorem payStep_returned_key {d : Int} {s : LoopState} {e : Int × Int}
    (h : e ∈ (payStep d s).returned) : e ∈ s.returned ∨ e.1 = d := by
  unfold payStep at h
  dsimp only at h
  split at h
  · rcases mem_mapSet h with h1 | h1
    · exact Or.inl h1
    · exact Or.inr (by rw [h1])
  · rcases mem_mapSet h with h1 | h1
    · exact Or.inl h1
    · exact Or.inr (by rw [h1])

theorem payStep_sum_emod (d : Int) (s : LoopState) (hfresh : ∀ e ∈ s.returned, e.1 ≠ d) :
    (sumCents (payStep d s).returned + (payStep d s).amount) % 18446744073709551616
      = (sumCents s.returned + s.amount) % 18446744073709551616 := by
  unfold payStep
  dsimp only
  split
  · dsimp only
    rw [mapSet_fresh _ _ _ hfresh, sumCents_append_one, mul_comm d]
    generalize wrapInt (s.amount.tdiv d) * d = x
    generalize sumCents s.returned = a
    generalize s.amount = b
    unfold wrapInt
    omega
  · dsimp only
    rw [mapSet_fresh _ _ _ hfresh, sumCents_append_one, mul_comm d]
    generalize s.stocks d * d = x
    generalize sumCents s.returned = a
    generalize s.amount = b
    unfold wrapInt
    omega

theorem payLoop_sum_emod (ds : List Int) (hnd : ds.Nodup) (s : LoopState)
    (hfresh : ∀ d ∈ ds, ∀ e ∈ s.returned, e.1 ≠ d) :
    (sumCents (payLoop ds s).returned + (payLoop ds s).amount) % 18446744073709551616
      = (sumCents s.returned + s.amount) % 18446744073709551616 := by
  induction ds generalizing s with
  | nil => rfl
  | cons d rest ih =>
    unfold payLoop
    split
    · rfl
    · have hd : d ∉ rest := (List.nodup_cons.1 hnd).1
      rw [ih (List.nodup_cons.1 hnd).2 (payStep d s)]
      · exact payStep_sum_emod d s (hfresh d (List.mem_cons_self _ _))
      · intro d1 hd1 e he
        rcases payStep_returned_key he with h1 | h1
        · exact hfresh d1 (List.mem_cons_of_mem _ hd1) e h1
        · rw [h1]
          intro hEq
          exact hd (hEq ▸ hd1)

theorem denominations_nodup : denominations.Nodup := by decide

/-! ### The rendering of `stockToCentsAndReadable` -/

theorem stockToCentsAndReadable_fst (m : IntMap) :
    (stockToCentsAndReadable m).1 = sumCents m := rfl

theorem stockToCentsAndReadable_snd (m : IntMap) (h0 : 0 ≤ sumCents m) :
    (stockToCentsAndReadable m).2 = euroCentRendering (sumCents m) := by
  have hr := isInt64_sumCents m
  unfold stockToCentsAndReadable euroCentRendering
  dsimp only
  generalize sumCents m = c at h0 hr
  have hdiv : c.tdiv 100 = c / 100 := Int.tdiv_eq_ediv h0 (by decide)
  have hmod : c.tmod 100 = c % 100 := Int.tmod_eq_emod h0 (by decide)
  have hw : wrapInt (c / 100) = c / 100 := by
    apply wrapInt_of_isInt64
    unfold isInt64 at hr ⊢
    omega
  rw [hdiv, hmod, hw]
  have hlit : " Euro" ++ " and " = " Euro and " := by decide
  by_cases hE : c / 100 > 0
  · by_cases hC : c % 100 > 0
    · have h1 : c ≠ 0 := by omega
      have h2 : c % 100 ≠ 0 := by omega
      have h3 : c / 100 ≠ 0 := by omega
      simp only [hE, hC, h1, h2, h3, if_true, if_false, String.empty_append,
        String.append_assoc]
      rw [← String.append_assoc " Euro", hlit]
    · have h1 : c ≠ 0 := by omega
      have h2 : c % 100 = 0 := by omega
      simp only [hE, h2, h1, if_true, if_false, String.empty_append, gt_iff_lt, lt_self_iff_false]
  · by_cases hC : c % 100 > 0
    · have h1 : c ≠ 0 := by omega
      have h2 : c % 100 ≠ 0 := by omega
      have h3 : c / 100 = 0 := by omega
      simp only [h3, hC, h1, h2, if_true, if_false, String.empty_append, gt_iff_lt,
        lt_self_iff_false]
    · have h1 : c = 0 := by omega
      subst h1
      simp

/-! ### The loop of `Pay` on a stock without negative counts -/

theorem payStep_nonneg (d : Int) (hd : 0 < d) (s : LoopState) (hs : s.nonneg) :
    (0 ≤ (payStep d s).amount ∧ (payStep d s).amount ≤ s.amount) ∧
    (∀ x, x ≠ d → (payStep d s).stocks x = s.stocks x) ∧
    (0 ≤ (payStep d s).stocks d ∧ (payStep d s).stocks d ≤ s.stocks d) ∧
    (s.stocks d - (payStep d s).stocks d) * d = s.amount - (payStep d s).amount := by
  obtain ⟨⟨ha0, ha1⟩, hst⟩ := hs
  have hq : s.amount.tdiv d = s.amount / d := Int.tdiv_eq_ediv ha0 (le_of_lt hd)
  have hq0 : 0 ≤ s.amount / d := Int.ediv_nonneg ha0 (le_of_lt hd)
  have hq1 : s.amount / d ≤ s.amount := Int.ediv_le_self _ ha0
  have hqd : s.amount / d * d ≤ s.amount := Int.ediv_mul_le _ (ne_of_gt hd)
  have hqd0 : 0 ≤ s.amount / d * d := mul_nonneg hq0 (le_of_lt hd)
  have hwq : wrapInt (s.amount / d) = s.amount / d :=
    wrapInt_of_isInt64 (by unfold isInt64; omega)
  have hwqd : wrapInt (s.amount / d * d) = s.amount / d * d :=
    wrapInt_of_isInt64 (by unfold isInt64; omega)
  have hsd := hst d
  unfold payStep
  dsimp only
  rw [hq, hwq, hwqd]
  split
  · rename_i hle
    dsimp only
    have h1 : wrapInt (s.stocks d - s.amount / d) = s.stocks d - s.amount / d :=
      wrapInt_of_isInt64 (by unfold isInt64; omega)
    have h2 : wrapInt (s.amount - s.amount / d * d) = s.amount - s.amount / d * d :=
      wrapInt_of_isInt64 (by unfold isInt64; omega)
    rw [h1, h2, Function.update_same]
    refine ⟨by omega, ?_, by omega, ?_⟩
    · intro x hx
      exact Function.update_noteq hx _ _
    · have h3 : s.stocks d - (s.stocks d - s.amount / d) = s.amount / d := by omega
      rw [h3]
      omega
  · rename_i hgt
    dsimp only
    have hx0 : 0 ≤ s.stocks d * d := mul_nonneg hsd.1 (le_of_lt hd)
    have hx1 : s.stocks d * d ≤ s.amount / d * d :=
      mul_le_mul_of_nonneg_right (by omega) (le_of_lt hd)
    have h1 : wrapInt (s.stocks d * d) = s.stocks d * d :=
      wrapInt_of_isInt64 (by unfold isInt64; omega)
    have h2 : wrapInt (s.amount - s.stocks d * d) = s.amount - s.stocks d * d :=
      wrapInt_of_isInt64 (by unfold isInt64; omega)
    rw [h1, h2, Function.update_same]
    refine ⟨by omega, ?_, by omega, ?_⟩
    · intro x hx
      exact Function.update_noteq hx _ _
    · rw [sub_zero]
      omega

theorem payStep_keeps_nonneg (d : Int) (hd : 0 < d) (s : LoopState) (hs : s.nonneg) :
    (payStep d s).nonneg := by
  obtain ⟨ha, hmid, hd1, _⟩ := payStep_nonneg d hd s hs
  obtain ⟨⟨ha0, ha1⟩, hst⟩ := hs
  refine ⟨by omega, ?_⟩
  intro x
  by_cases hx : x = d
  · subst hx
    have := hst x
    omega
  · rw [hmid x hx]
    exact hst x

theorem payLoop_nonneg (ds : List Int) (hpos : ∀ d ∈ ds, 0 < d) (hnd : ds.Nodup)
    (s : LoopState) (hs : s.nonneg) :
    (0 ≤ (payLoop ds s).amount ∧ (payLoop ds s).amount ≤ s.amount) ∧
    (∀ x, 0 ≤ (payLoop ds s).stocks x ∧ (payLoop ds s).stocks x ≤ s.stocks x) ∧
    (∀ x, x ∉ ds → (payLoop ds s).stocks x = s.stocks x) ∧
    (ds.map (fun d => (s.stocks d - (payLoop ds s).stocks d) * d)).sum
      = s.amount - (payLoop ds s).amount := by
  induction ds generalizing s with
  | nil =>
    refine ⟨⟨hs.1.1, le_refl _⟩, fun x => ⟨(hs.2 x).1, le_refl _⟩, fun _ _ => rfl, ?_⟩
    simp [payLoop]
  | cons d rest ih =>
    have hd : 0 < d := hpos d (List.mem_cons_self _ _)
    have hdr : d ∉ rest := (List.nodup_cons.1 hnd).1
    unfold payLoop
    split
    · rename_i h0
      refine ⟨⟨hs.1.1, le_refl _⟩, fun x => ⟨(hs.2 x).1, le_refl _⟩, fun _ _ => rfl, ?_⟩
      simp [h0]
    · obtain ⟨ha, hmid, hd1, hsum1⟩ := payStep_nonneg d hd s hs
      obtain ⟨ia, ist, iout, isum⟩ :=
        ih (fun x hx => hpos x (List.mem_cons_of_mem _ hx)) (List.nodup_cons.1 hnd).2
          (payStep d s) (payStep_keeps_nonneg d hd s hs)
      refine ⟨by omega, ?_, ?_, ?_⟩
      · intro x
        have h1 := ist x
        by_cases hx : x = d
        · subst hx
          omega
        · rw [hmid x hx] at h1
          exact h1
      · intro x hx
        rw [List.mem_cons, not_or] at hx
        rw [iout x hx.2, hmid x hx.1]
      · rw [List.map_cons, List.sum_cons, iout d hdr, hsum1]
        have hrest : rest.map (fun x => (s.stocks x - (payLoop rest (payStep d s)).stocks x) * x)
            = rest.map (fun x => ((payStep d s).stocks x
                - (payLoop rest (payStep d s)).stocks x) * x) := by
          apply List.map_congr_left
          intro x hx
          have hxd : x ≠ d := fun h => hdr (h ▸ hx)
          rw [hmid x hxd]
        rw [hrest, isum]
        omega

theorem denominations_pos : ∀ d ∈ denominations, (0 : Int) < d := by decide

/-- The three ways `Pay` ends when the payment is valid, on a stock without
negative counts: the stock never grows, and what left the stock is worth the
change minus what the loop could not give. -/
theorem Pay_valid_cases (st : Stocks) (hst : stockNonneg st) (p i : Int)
    (hp : isInt64 p) (hi : isInt64 i) (hpos : 0 < p) (hge : p ≤ i) :
    (∀ d, 0 ≤ (Pay st p i).stocks d ∧ (Pay st p i).stocks d ≤ st d) ∧
    (∀ d, d ∉ denominations → (Pay st p i).stocks d = st d) ∧
    ((Pay st p i).err = none →
      (denominations.map (fun d => (st d - (Pay st p i).stocks d) * d)).sum = i - p) ∧
    ((Pay st p i).err = none ∨ (Pay st p i).err = some GoError.ErrNotEnoughChange) := by
  have hw : wrapInt (i - p) = i - p :=
    wrapInt_of_isInt64 (by unfold isInt64 at *; omega)
  unfold Pay
  rw [if_neg (by omega), hw]
  dsimp only
  by_cases h0 : i - p = 0
  · rw [if_pos h0]
    refine ⟨fun d => ⟨(hst d).1, le_refl _⟩, fun _ _ => rfl, fun _ => ?_, Or.inl rfl⟩
    simp [h0]
  · rw [if_neg h0]
    have hs : LoopState.nonneg ⟨i - p, st, []⟩ :=
      ⟨⟨by dsimp only; omega, by unfold isInt64 at *; dsimp only; omega⟩, hst⟩
    obtain ⟨la, lst, lout, lsum⟩ :=
      payLoop_nonneg denominations denominations_pos denominations_nodup _ hs
    dsimp only at la lst lout lsum
    split
    · exact ⟨lst, lout, fun h => by simp at h, Or.inr rfl⟩
    · rename_i hz
      have hz0 : (payLoop denominations ⟨i - p, st, []⟩).amount = 0 := by
        by_contra hne
        exact hz hne
      refine ⟨lst, lout, fun _ => ?_, Or.inl rfl⟩
      dsimp only
      rw [lsum, hz0]
      omega

theorem stockNonneg_stocks : stockNonneg stocks := by
  intro d
  unfold stocks
  split <;> omega

/-! ### Claims about `Pay` -/

/-- A successful `Pay` returns the change `i - p` and its rendering, on every
stock. -/
theorem Pay_success_returned (st : Stocks) (p i : Int) (hp : isInt64 p) (hi : isInt64 i)
    (hpos : 0 < p) (hge : p ≤ i) (hok : (Pay st p i).err = none) :
    (Pay st p i).returned.Cents = i - p ∧
      (Pay st p i).returned.Formatted = euroCentRendering (i - p) := by
  have hr : isInt64 (i - p) := by unfold isInt64 at *; omega
  have hw : wrapInt (i - p) = i - p := wrapInt_of_isInt64 hr
  unfold Pay at hok ⊢
  rw [if_neg (by omega), hw] at hok ⊢
  dsimp only at hok ⊢
  by_cases h0 : i - p = 0
  · rw [if_pos h0, h0]
    have hrender : euroCentRendering 0 = "" := by decide
    exact ⟨rfl, hrender.symm⟩
  · rw [if_neg h0] at hok ⊢
    split at hok
    · simp at hok
    · rename_i hz
      have hz0 : (payLoop denominations ⟨i - p, st, []⟩).amount = 0 := by
        by_contra hne
        exact hz hne
      have hmod := payLoop_sum_emod denominations denominations_nodup ⟨i - p, st, []⟩
        (fun _ _ e he => absurd he (List.not_mem_nil e))
      rw [hz0] at hmod
      have hsum0 : sumCents ([] : IntMap) = 0 := rfl
      dsimp only at hmod
      rw [hsum0, add_zero, zero_add] at hmod
      have hc : sumCents (payLoop denominations ⟨i - p, st, []⟩).returned = i - p :=
        eq_of_emod_eq_of_isInt64 (isInt64_sumCents _) hr hmod
      rw [if_neg hz]
      dsimp only
      rw [stockToCentsAndReadable_snd _ (by rw [hc]; omega), stockToCentsAndReadable_fst, hc]
      exact ⟨rfl, rfl⟩

/-- C1: for every stock state, every price `p > 0` and every inserted amount
`i ≥ p` (both Go integers), whenever `Pay(p, i)` succeeds the returned amount is
exactly the change: `Cents = i - p` and `Formatted` is the Euro/Cent rendering
of `i - p` cents. -/
theorem Pay_returns_exact_change (st : Stocks) (p i : Int) (hp : isInt64 p) (hi : isInt64 i)
    (hpos : 0 < p) (hge : p ≤ i) (hok : (Pay st p i).err = none) :
    (Pay st p i).returned.Cents = i - p ∧
      (Pay st p i).returned.Formatted = euroCentRendering (i - p) :=
  Pay_success_returned st p i hp hi hpos hge hok

/-- C1 at the payment of the repository's test: price 5, inserted 10, on the
fresh stock. -/
theorem Pay_returns_exact_change_witness :
    (isInt64 5 ∧ isInt64 10 ∧ (0 : Int) < 5 ∧ (5 : Int) ≤ 10 ∧ (Pay stocks 5 10).err = none) ∧
      (Pay stocks 5 10).returned.Cents = 10 - 5 ∧
      (Pay stocks 5 10).returned.Formatted = euroCentRendering (10 - 5) :=
  ⟨by decide, Pay_returns_exact_change stocks 5 10 (by decide) (by decide) (by decide)
    (by decide) (by decide)⟩

/-- The two successful rows of `TestPay`. -/
theorem TestPay_success_rows :
    (Pay stocks 5 10).returned = ⟨5, "5 Cent"⟩ ∧ (Pay stocks 5 10).err = none ∧
      (Pay stocks 5 5).returned = ⟨0, ""⟩ ∧ (Pay stocks 5 5).err = none := by
  decide

/-- C2: for all integers `price` and `inserted` and every stock state, `Pay`
fails with `ErrInvalidPayment` if and only if `price ≤ 0` or `inserted ≤ 0` or
`inserted < price`, and in that case it returns the empty `ReturnedAmount`. -/
theorem Pay_ErrInvalidPayment_iff (st : Stocks) (price inserted : Int) :
    ((Pay st price inserted).err = some GoError.ErrInvalidPayment ↔
        (price ≤ 0 ∨ inserted ≤ 0 ∨ inserted < price)) ∧
      ((Pay st price inserted).err = some GoError.ErrInvalidPayment →
        (Pay st price inserted).returned = ReturnedAmount.empty) := by
  unfold Pay
  by_cases hc : (price ≤ 0 ∨ inserted ≤ 0) ∨ inserted < price
  · rw [if_pos hc]
    refine ⟨⟨fun _ => ?_, fun _ => rfl⟩, fun _ => rfl⟩
    rcases hc with (h | h) | h
    · exact Or.inl h
    · exact Or.inr (Or.inl h)
    · exact Or.inr (Or.inr h)
  · rw [if_neg hc]
    dsimp only
    have hn : ¬ (price ≤ 0 ∨ inserted ≤ 0 ∨ inserted < price) := by
      intro h
      apply hc
      rcases h with h | h | h
      · exact Or.inl (Or.inl h)
      · exact Or.inl (Or.inr h)
      · exact Or.inr h
    split
    · exact ⟨⟨fun h => by simp at h, fun h => absurd h hn⟩, fun h => by simp at h⟩
    · split
      · exact ⟨⟨fun h => by simp at h, fun h => absurd h hn⟩, fun h => by simp at h⟩
      · exact ⟨⟨fun h => by simp at h, fun h => absurd h hn⟩, fun h => by simp at h⟩

/-- The three failing rows of `TestPay`. -/
theorem TestPay_invalid_rows :
    (Pay stocks 0 0).err = some GoError.ErrInvalidPayment ∧
      (Pay stocks 10 5).err = some GoError.ErrInvalidPayment ∧
      (Pay stocks (-1) (-10)).err = some GoError.ErrInvalidPayment ∧
      (Pay stocks 0 0).returned = ReturnedAmount.empty ∧
      (Pay stocks 10 5).returned = ReturnedAmount.empty ∧
      (Pay stocks (-1) (-10)).returned = ReturnedAmount.empty := by
  decide

/-- On a stock without negative counts a successful `Pay` hands out a selection
of pieces that was available in the stock and is worth the change. -/
theorem Pay_success_isSelection (st : Stocks) (hst : stockNonneg st) (p i : Int)
    (hp : isInt64 p) (hi : isInt64 i) (hpos : 0 < p) (hge : p ≤ i)
    (hok : (Pay st p i).err = none) :
    isSelection st (removed st (Pay st p i).stocks) (i - p) := by
  obtain ⟨hle, _, hsum, _⟩ := Pay_valid_cases st hst p i hp hi hpos hge
  refine ⟨fun d _ => ?_, hsum hok⟩
  have := hle d
  unfold removed
  omega

set_option maxRecDepth 1000000

/-- C3 (the code against the claim): on the stock left by `smallChangeCalls`,
which the register reaches from its fresh stock, `Pay(1, 61)` succeeds and
takes six pieces (one 50 cent and five 2 cent coins) out of the stock, although
three 20 cent coins of that stock make the same change of 60 cents. -/
theorem Pay_not_fewest_pieces :
    (Pay stockAfterSmallChange 1 61).err = none ∧
      (Pay stockAfterSmallChange 1 61).returned = ⟨60, "60 Cent"⟩ ∧
      pieces (removed stockAfterSmallChange (Pay stockAfterSmallChange 1 61).stocks) = 6 ∧
      removed stockAfterSmallChange (Pay stockAfterSmallChange 1 61).stocks 50 = 1 ∧
      removed stockAfterSmallChange (Pay stockAfterSmallChange 1 61).stocks 2 = 5 ∧
      isSelection stockAfterSmallChange threeTwenties (61 - 1) ∧
      pieces threeTwenties = 3 := by
  decide

/-- C4 (the code against the claim): on the stock left after the 10, 5, 2 and
1 cent coins are used up and one 50 cent coin remains, which the register
reaches from its fresh stock, `Pay(1, 61)` fails with `ErrNotEnoughChange`
although three 20 cent coins of that stock sum exactly to the change of 60. -/
theorem Pay_fails_with_sufficient_stock :
    (∀ d ∈ denominations, 0 ≤ stockWithoutSmallCoins d) ∧
      (Pay stockWithoutSmallCoins 1 61).err = some GoError.ErrNotEnoughChange ∧
      isSelection stockWithoutSmallCoins threeTwenties (61 - 1) := by
  decide

/-- C5: for every stock state with non-negative counts and every successful
`Pay(p, i)` with `p > 0` and `i ≥ p`, no denomination's count increases, the
face value of the pieces removed from the stock equals `i - p`, and the stock
is unchanged when `i = p`. -/
theorem Pay_stock_decrease (st : Stocks) (hst : stockNonneg st) (p i : Int)
    (hp : isInt64 p) (hi : isInt64 i) (hpos : 0 < p) (hge : p ≤ i)
    (hok : (Pay st p i).err = none) :
    (∀ d, (Pay st p i).stocks d ≤ st d) ∧
      (denominations.map (fun d => removed st (Pay st p i).stocks d * d)).sum = i - p ∧
      (i = p → (Pay st p i).stocks = st) := by
  obtain ⟨hle, _, hsum, _⟩ := Pay_valid_cases st hst p i hp hi hpos hge
  refine ⟨fun d => (hle d).2, hsum hok, ?_⟩
  intro hip
  subst hip
  unfold Pay
  rw [if_neg (by omega)]
  have h0 : wrapInt (i - i) = 0 := by rw [sub_self]; decide
  dsimp only
  rw [if_pos h0]

/-- C5 at price 5 and inserted 10 on the fresh stock. -/
theorem Pay_stock_decrease_witness :
    (stockNonneg stocks ∧ isInt64 5 ∧ isInt64 10 ∧ (0 : Int) < 5 ∧ (5 : Int) ≤ 10 ∧
        (Pay stocks 5 10).err = none) ∧
      (∀ d, (Pay stocks 5 10).stocks d ≤ stocks d) ∧
      (denominations.map (fun d => removed stocks (Pay stocks 5 10).stocks d * d)).sum
        = 10 - 5 ∧
      ((10 : Int) = 5 → (Pay stocks 5 10).stocks = stocks) :=
  ⟨⟨stockNonneg_stocks, by decide, by decide, by decide, by decide, by decide⟩,
    Pay_stock_decrease stocks stockNonneg_stocks 5 10 (by decide) (by decide) (by decide)
      (by decide) (by decide)⟩

/-- C6: a failed `Pay` does not roll back.  On the fresh stock of ten pieces per
denomination `Pay(1, 88882)` fails with `ErrNotEnoughChange` and leaves every
denomination at 0, so the stock after the call differs from the stock before. -/
theorem Pay_failure_keeps_decrements :
    (Pay stocks 1 88882).err = some GoError.ErrNotEnoughChange ∧
      (Pay stocks 1 88882).returned = ReturnedAmount.empty ∧
      (∀ d ∈ denominations, stocks d = 10 ∧ (Pay stocks 1 88882).stocks d = 0) ∧
      (Pay stocks 1 88882).stocks ≠ stocks := by
  refine ⟨by decide, by decide, by decide, ?_⟩
  intro h
  exact absurd (congrFun h 1) (by decide)

/-- C7: non-negative stock is an invariant of `Pay`.  For every stock state in
which every count is a non-negative Go integer and for all Go integers `price`
and `inserted`, every count is still non-negative after `Pay` returns, with or
without an error. -/
theorem Pay_keeps_stock_nonneg (st : Stocks) (hst : stockNonneg st) (price inserted : Int)
    (hp : isInt64 price) (hi : isInt64 inserted) :
    ∀ d, 0 ≤ (Pay st price inserted).stocks d := by
  intro d
  by_cases hc : (price ≤ 0 ∨ inserted ≤ 0) ∨ inserted < price
  · unfold Pay
    rw [if_pos hc]
    exact (hst d).1
  · have hpos : 0 < price := by omega
    have hge : price ≤ inserted := by omega
    exact ((Pay_valid_cases st hst price inserted hp hi hpos hge).1 d).1

/-- C7 at the failing payment `Pay(1, 88882)` on the fresh stock. -/
theorem Pay_keeps_stock_nonneg_witness :
    (stockNonneg stocks ∧ isInt64 1 ∧ isInt64 88882) ∧
      ∀ d, 0 ≤ (Pay stocks 1 88882).stocks d :=
  ⟨⟨stockNonneg_stocks, by decide, by decide⟩,
    Pay_keeps_stock_nonneg stocks stockNonneg_stocks 1 88882 (by decide) (by decide)⟩

/-- The counts per denomination of the two stocks used above, and that every
payment leading to them succeeds from the fresh stock. -/
theorem reached_stock_counts :
    denominations.map stockAfterSmallChange = [10, 10, 10, 10, 10, 10, 1, 10, 0, 0, 10, 10] ∧
      denominations.map stockWithoutSmallCoins = [10, 10, 10, 10, 10, 10, 1, 10, 0, 0, 0, 0] ∧
      (Pay stocks 1 11).err = none ∧ (Pay stocks 1 6).err = none ∧
      (Pay stocks 1 51).err = none ∧ (Pay stockAfterSmallChange 1 3).err = none ∧
      (Pay stockAfterSmallChange 1 2).err = none := by
  decide

/-! ### Claims about `stockToCentsAndReadable` -/

theorem faceValue_nonneg (m : IntMap) (hq : ∀ e ∈ m, 0 ≤ e.1 ∧ 0 ≤ e.2) : 0 ≤ faceValue m := by
  unfold faceValue
  apply List.sum_nonneg
  intro x hx
  obtain ⟨e, he, rfl⟩ := List.mem_map.1 hx
  exact mul_nonneg (hq e he).1 (hq e he).2

theorem foldl_cents_eq (m : IntMap) (hq : ∀ e ∈ m, 0 ≤ e.1 ∧ 0 ≤ e.2) (acc : Int)
    (h0 : 0 ≤ acc) (hfit : acc + faceValue m < 9223372036854775808) :
    m.foldl (fun cents e => wrapInt (cents + wrapInt (e.1 * e.2))) acc = acc + faceValue m := by
  induction m generalizing acc with
  | nil => simp [faceValue]
  | cons e m ih =>
    have hm : ∀ x ∈ m, 0 ≤ x.1 ∧ 0 ≤ x.2 := fun x hx => hq x (List.mem_cons_of_mem _ hx)
    have he : 0 ≤ e.1 * e.2 :=
      mul_nonneg (hq e (List.mem_cons_self _ _)).1 (hq e (List.mem_cons_self _ _)).2
    have hrest := faceValue_nonneg m hm
    have hcons : faceValue (e :: m) = e.1 * e.2 + faceValue m := by
      simp [faceValue]
    rw [hcons] at hfit
    have h1 : wrapInt (e.1 * e.2) = e.1 * e.2 :=
      wrapInt_of_isInt64 (by unfold isInt64; omega)
    have h2 : wrapInt (acc + e.1 * e.2) = acc + e.1 * e.2 :=
      wrapInt_of_isInt64 (by unfold isInt64; omega)
    rw [List.foldl_cons, h1, h2, ih hm (acc + e.1 * e.2) (by omega) (by omega), hcons]
    omega

theorem sumCents_eq_faceValue (m : IntMap) (hq : ∀ e ∈ m, 0 ≤ e.1 ∧ 0 ≤ e.2)
    (hfit : faceValue m < 9223372036854775808) : sumCents m = faceValue m := by
  unfold sumCents
  rw [foldl_cents_eq m hq 0 (le_refl _) (by omega)]
  omega

/-- C8 (the claim as stated fails): the map with the single entry
5000 ↦ 2^62 holds a denomination with a non-negative quantity, but the product
leaves the range of Go's `int` and `stockToCentsAndReadable` returns 0 cents
and the empty string instead of the sum 5000 * 2^62. -/
theorem stockToCentsAndReadable_overflow :
    (∀ e ∈ [((5000 : Int), (4611686018427387904 : Int))],
        e.1 ∈ denominations ∧ 0 ≤ e.2 ∧ isInt64 e.2) ∧
      stockToCentsAndReadable [(5000, 4611686018427387904)] = (0, "") ∧
      faceValue [(5000, 4611686018427387904)] = 23058430092136939520000 ∧
      (stockToCentsAndReadable [(5000, 4611686018427387904)]).1
        ≠ faceValue [(5000, 4611686018427387904)] := by
  decide

/-- C8 (amended): for every map from denominations to non-negative quantities
whose total, the sum of denomination times quantity, is below 2^63,
`stockToCentsAndReadable` returns that total as cents and a string built from
`E = cents / 100` and `C = cents mod 100`: empty when cents is 0, "E Euro" when
`C = 0 < E`, "C Cent" when `E = 0 < C`, and "E Euro and C Cent" when both are
positive. -/
theorem stockToCentsAndReadable_spec (m : IntMap) (hq : ∀ e ∈ m, 0 ≤ e.1 ∧ 0 ≤ e.2)
    (hfit : faceValue m < 9223372036854775808) :
    (stockToCentsAndReadable m).1 = faceValue m ∧
      (faceValue m = 0 → (stockToCentsAndReadable m).2 = "") ∧
      (faceValue m % 100 = 0 → 0 < faceValue m / 100 →
        (stockToCentsAndReadable m).2 = fmtD (faceValue m / 100) ++ " Euro") ∧
      (faceValue m / 100 = 0 → 0 < faceValue m % 100 →
        (stockToCentsAndReadable m).2 = fmtD (faceValue m % 100) ++ " Cent") ∧
      (0 < faceValue m / 100 → 0 < faceValue m % 100 →
        (stockToCentsAndReadable m).2
          = fmtD (faceValue m / 100) ++ " Euro and " ++ fmtD (faceValue m % 100) ++ " Cent") := by
  have hs := sumCents_eq_faceValue m hq hfit
  have h0 := faceValue_nonneg m hq
  have hsnd := stockToCentsAndReadable_snd m (by rw [hs]; exact h0)
  rw [hs] at hsnd
  rw [stockToCentsAndReadable_fst, hsnd, hs]
  unfold euroCentRendering
  dsimp only
  refine ⟨rfl, ?_, ?_, ?_, ?_⟩
  · intro h
    rw [if_pos h]
  · intro hC hE
    rw [if_neg (by omega), if_pos hC]
  · intro hE hC
    rw [if_neg (by omega), if_neg (by omega), if_pos hE]
  · intro hE hC
    rw [if_neg (by omega), if_neg (by omega), if_neg (by omega)]

/-- C8 (amended) at the map of `TestStockToReadable`: one 1 Euro coin and one
50 cent coin. -/
theorem stockToCentsAndReadable_spec_witness :
    ((∀ e ∈ [((100 : Int), (1 : Int)), (50, 1)], 0 ≤ e.1 ∧ 0 ≤ e.2) ∧
        faceValue [(100, 1), (50, 1)] < 9223372036854775808) ∧
      (stockToCentsAndReadable [(100, 1), (50, 1)]).1 = faceValue [(100, 1), (50, 1)] ∧
      (faceValue [(100, 1), (50, 1)] = 0 → (stockToCentsAndReadable [(100, 1), (50, 1)]).2 = "") ∧
      (faceValue [(100, 1), (50, 1)] % 100 = 0 → 0 < faceValue [(100, 1), (50, 1)] / 100 →
        (stockToCentsAndReadable [(100, 1), (50, 1)]).2
          = fmtD (faceValue [(100, 1), (50, 1)] / 100) ++ " Euro") ∧
      (faceValue [(100, 1), (50, 1)] / 100 = 0 → 0 < faceValue [(100, 1), (50, 1)] % 100 →
        (stockToCentsAndReadable [(100, 1), (50, 1)]).2
          = fmtD (faceValue [(100, 1), (50, 1)] % 100) ++ " Cent") ∧
      (0 < faceValue [(100, 1), (50, 1)] / 100 → 0 < faceValue [(100, 1), (50, 1)] % 100 →
        (stockToCentsAndReadable [(100, 1), (50, 1)]).2
          = fmtD (faceValue [(100, 1), (50, 1)] / 100) ++ " Euro and "
            ++ fmtD (faceValue [(100, 1), (50, 1)] % 100) ++ " Cent") :=
  ⟨⟨by decide, by decide⟩,
    stockToCentsAndReadable_spec [(100, 1), (50, 1)] (by decide) (by decide)⟩

/-- The expectation of `TestStockToReadable`. -/
theorem TestStockToReadable_row :
    stockToCentsAndReadable [(100, 1), (50, 1)] = (150, "1 Euro and 50 Cent") ∧
      stockToCentsAndReadable [(50, 1), (100, 1)] = (150, "1 Euro and 50 Cent") := by
  decide

end cashregister

namespace orders

/-! ### Claims about `Order.Validate` -/

/-- C9: `Order.Validate` decides in this order: a nil order fails with
`ErrOrderNil`; an order whose kind is neither "vegan" nor "non-vegan" fails with
`ErrInvalidOrderType`, whatever was inserted; an order with `Inserted` below the
price of its kind (30 for vegan, 35 for non-vegan) fails with `ErrInvalidOrder`
carrying that inserted amount and that price; every other order validates with
a nil error. -/
theorem Validate_decides :
    Order.Validate none = some GoError.ErrOrderNil ∧
      ∀ o : Order, Order.Validate (some o) =
        if o.OrderType = "vegan" then
          (if o.Inserted < 30 then some (GoError.ErrInvalidOrder o.Inserted 30) else none)
        else if o.OrderType = "non-vegan" then
          (if o.Inserted < 35 then some (GoError.ErrInvalidOrder o.Inserted 35) else none)
        else some GoError.ErrInvalidOrderType := by
  refine ⟨rfl, ?_⟩
  intro o
  unfold Order.Validate pkg.GetOrderType pkg.validOrderTypes
  by_cases hv : o.OrderType = "vegan"
  · simp [hv, List.lookup, pkg.OrderType.Price]
  · by_cases hn : o.OrderType = "non-vegan"
    · have hne : ("non-vegan" == "vegan") = false := by decide
      simp [hn, List.lookup, pkg.OrderType.Price, hne]
    · have h1 : (o.OrderType == "vegan") = false := by simpa using hv
      have h2 : (o.OrderType == "non-vegan") = false := by simpa using hn
      simp [hv, hn, List.lookup, h1, h2]

/-- The rows of `TestOrder_Validate`. -/
theorem TestOrder_Validate_rows :
    Order.Validate (some (NewOrder false 50 Vegan)) = none ∧
      Order.Validate (some (NewOrder false 50 "burger")) = some GoError.ErrInvalidOrderType ∧
      Order.Validate (some (NewOrder false 10 NonVegan)) = some (GoError.ErrInvalidOrder 10 35) ∧
      Order.Validate none = some GoError.ErrOrderNil := by
  decide

end orders

namespace terminals

open orders

/-! ### Claims about `Terminal.Put` and `Terminal.Get` -/

theorem NewTerminal_eq (c : Int) (hc : 0 ≤ c) :
    NewTerminal c = (some (openTerminal c []), none) := by
  unfold NewTerminal openTerminal
  rw [if_neg (by omega)]

theorem Put_openTerminal (c : Int) (q : List OrderPtr) (p : Nat) (pick : Bool)
    (hlen : (q.length : Int) < c) :
    Terminal.Put (some (openTerminal c q)) (some p) pick
      = (Outcome.ret none, some (openTerminal c (q ++ [some p]))) := by
  have h1 : ¬ ((q.length : Int) = c) := by omega
  have h2 : q.length < c.toNat := by omega
  simp [Terminal.Put, openTerminal, Terminal.len, h1, h2]

theorem putAll_openTerminal (c : Int) (calls : List (Nat × Bool)) (q : List OrderPtr)
    (hlen : (q.length : Int) + calls.length ≤ c) :
    putAll (some (openTerminal c q)) (calls.map (fun x => (some x.1, x.2)))
      = (calls.map (fun _ => Outcome.ret none),
          some (openTerminal c (q ++ calls.map (fun x => some x.1)))) := by
  induction calls generalizing q with
  | nil => simp [putAll]
  | cons x xs ih =>
    have hx : (q.length : Int) < c := by
      simp only [List.length_cons, Nat.cast_add, Nat.cast_one] at hlen
      omega
    have hrest : ((q ++ [some x.1]).length : Int) + xs.length ≤ c := by
      simp only [List.length_cons, List.length_append, List.length_nil, Nat.cast_add,
        Nat.cast_one, Nat.cast_zero] at hlen ⊢
      omega
    simp only [List.map_cons, putAll, Put_openTerminal c q x.1 x.2 hx, ih _ hrest,
      List.append_assoc, List.singleton_append]

theorem Get_openTerminal (h : Heap) (c : Int) (p : Nat) (rest : List OrderPtr)
    (hp : (h p).ctx = some false) :
    Terminal.Get h (some (openTerminal c (some p :: rest)))
      = (Outcome.ret (some p, none), some (openTerminal c rest)) := by
  simp [Terminal.Get, openTerminal, Order.IsCancelled, hp]

theorem getN_openTerminal (h : Heap) (c : Int) (ps : List Nat) (rest : List OrderPtr)
    (hps : ∀ p ∈ ps, (h p).ctx = some false) :
    getN h (some (openTerminal c (ps.map some ++ rest))) ps.length
      = (ps.map (fun p => Outcome.ret (some p, none)), some (openTerminal c rest)) := by
  induction ps with
  | nil => simp [getN]
  | cons p ps ih =>
    have hp := hps p (List.mem_cons_self _ _)
    have ih1 := ih (fun x hx => hps x (List.mem_cons_of_mem _ hx))
    simp only [List.map_cons, List.cons_append, List.length_cons, getN,
      Get_openTerminal h c p _ hp, ih1]

/-- C10: station FIFO.  For every capacity `c` and every sequence of `N ≤ c`
non-nil, non-cancelled orders put one after another by a single producer into
the terminal `NewTerminal(c)` before any `Get`, every `Put` returns a nil error
and `N` successive `Get` calls return exactly those orders in the order they
were put, each with a nil error. -/
theorem Terminal_FIFO (c : Int) (h : Heap) (calls : List (Nat × Bool))
    (hN : (calls.length : Int) ≤ c) (hnc : ∀ x ∈ calls, (h x.1).ctx = some false) :
    (NewTerminal c).2 = none ∧
      (putAll (NewTerminal c).1 (calls.map (fun x => (some x.1, x.2)))).1
        = calls.map (fun _ => Outcome.ret none) ∧
      (getN h (putAll (NewTerminal c).1 (calls.map (fun x => (some x.1, x.2)))).2
          calls.length).1
        = calls.map (fun x => Outcome.ret (some x.1, none)) := by
  have hc : 0 ≤ c := le_trans (Int.ofNat_nonneg _) hN
  rw [NewTerminal_eq c hc]
  dsimp only
  rw [putAll_openTerminal c calls [] (by simpa using hN)]
  dsimp only
  refine ⟨rfl, rfl, ?_⟩
  have hget := getN_openTerminal h c (calls.map (fun x => x.1)) []
    (fun p hp => by
      obtain ⟨x, hx, rfl⟩ := List.mem_map.1 hp
      exact hnc x hx)
  simp only [List.map_map, List.append_nil, List.length_map, List.nil_append] at hget ⊢
  rw [show (fun x : Nat × Bool => some x.1) = some ∘ (fun x : Nat × Bool => x.1) from rfl,
    hget]
  rfl

/-- C10 at the run of `Test_PutGetOrder`: three orders on a terminal of
capacity 5. -/
theorem Terminal_FIFO_witness :
    (((([(0, true), (1, false), (2, true)] : List (Nat × Bool)).length : Int) ≤ 5) ∧
        ∀ x ∈ ([(0, true), (1, false), (2, true)] : List (Nat × Bool)),
          (putGetHeap x.1).ctx = some false) ∧
      (NewTerminal 5).2 = none ∧
      (putAll (NewTerminal 5).1
          (([(0, true), (1, false), (2, true)] : List (Nat × Bool)).map
            (fun x => (some x.1, x.2)))).1
        = ([(0, true), (1, false), (2, true)] : List (Nat × Bool)).map
            (fun _ => Outcome.ret none) ∧
      (getN putGetHeap (putAll (NewTerminal 5).1
          (([(0, true), (1, false), (2, true)] : List (Nat × Bool)).map
            (fun x => (some x.1, x.2)))).2
          ([(0, true), (1, false), (2, true)] : List (Nat × Bool)).length).1
        = ([(0, true), (1, false), (2, true)] : List (Nat × Bool)).map
            (fun x => Outcome.ret (some x.1, none)) :=
  ⟨⟨by decide, by decide⟩,
    Terminal_FIFO 5 putGetHeap [(0, true), (1, false), (2, true)] (by decide) (by decide)⟩

/-- The expectation of `Test_PutGetOrder`: the inserted amounts come back as
45, 50, 10. -/
theorem Test_PutGetOrder_rows :
    (getN putGetHeap
        (putAll (NewTerminal 5).1 [(some 0, true), (some 1, true), (some 2, true)]).2 3).1
      = [Outcome.ret (some 0, none), Outcome.ret (some 1, none), Outcome.ret (some 2, none)] ∧
      [(putGetHeap 0).Inserted, (putGetHeap 1).Inserted, (putGetHeap 2).Inserted]
        = [45, 50, 10] := by
  decide

end terminals

namespace terminals

open orders

/-! ### Claims about `Terminal.Close` -/

theorem Close_ok_shape (t : Option Terminal) (hok : (Terminal.Close t).1 = none) :
    ∃ tt, t = some tt ∧ tt.done = false ∧
      (Terminal.Close t).2 = some { tt with done := true, orders := none } := by
  cases t with
  | none => simp [Terminal.Close] at hok
  | some tt =>
    unfold Terminal.Close at hok ⊢
    dsimp only at hok ⊢
    by_cases hd : tt.done = true
    · rw [if_pos hd] at hok
      simp at hok
    · rw [if_neg hd]
      exact ⟨tt, rfl, by simpa using hd, rfl⟩

theorem Get_of_done (h : Heap) (tt : Terminal) (hd : tt.done = true) :
    Terminal.Get h (some tt) = (Outcome.ret (none, some GoError.ErrTerminalClosed), some tt) := by
  simp [Terminal.Get, hd]

theorem getN_of_done (h : Heap) (tt : Terminal) (hd : tt.done = true) (n : Nat) :
    getN h (some tt) n
      = (List.replicate n (Outcome.ret (none, some GoError.ErrTerminalClosed)), some tt) := by
  induction n with
  | zero => rfl
  | succ n ih => simp only [getN, Get_of_done h tt hd, ih, List.replicate_succ]

/-- C11 (the claim as stated fails): three orders are put into a terminal of
capacity 5 and could be retrieved by three `Get` calls, but once `Close` has
succeeded the next three `Get` calls return no order and `ErrTerminalClosed`. -/
theorem Close_drops_queued_orders :
    queued (putAll (NewTerminal 5).1 [(some 0, true), (some 1, true), (some 2, true)]).2 = 3 ∧
      (getN putGetHeap
          (putAll (NewTerminal 5).1 [(some 0, true), (some 1, true), (some 2, true)]).2 3).1
        = [Outcome.ret (some 0, none), Outcome.ret (some 1, none), Outcome.ret (some 2, none)] ∧
      (Terminal.Close
          (putAll (NewTerminal 5).1 [(some 0, true), (some 1, true), (some 2, true)]).2).1
        = none ∧
      (getN putGetHeap (Terminal.Close
          (putAll (NewTerminal 5).1 [(some 0, true), (some 1, true), (some 2, true)]).2).2 3).1
        = [Outcome.ret (none, some GoError.ErrTerminalClosed),
            Outcome.ret (none, some GoError.ErrTerminalClosed),
            Outcome.ret (none, some GoError.ErrTerminalClosed)] := by
  decide

/-- C11 (amended): for every terminal on which `Close` succeeds, in particular
one holding `k ≥ 1` queued orders at that moment, the queue is empty afterwards
and every later `Get`, the next `k` included, returns no order and fails with
`ErrTerminalClosed`. -/
theorem Get_after_Close_never_drains (h : Heap) (t : Option Terminal) (n : Nat)
    (hok : (Terminal.Close t).1 = none) :
    queued (Terminal.Close t).2 = 0 ∧
      (getN h (Terminal.Close t).2 n).1
        = List.replicate n (Outcome.ret (none, some GoError.ErrTerminalClosed)) ∧
      (getN h (Terminal.Close t).2 n).2 = (Terminal.Close t).2 := by
  obtain ⟨tt, _, _, hc⟩ := Close_ok_shape t hok
  rw [hc, getN_of_done h _ rfl n]
  exact ⟨rfl, rfl, rfl⟩

/-- C11 (amended) at a terminal of capacity 5 holding three orders. -/
theorem Get_after_Close_never_drains_witness :
    (queued (putAll (NewTerminal 5).1 [(some 0, true), (some 1, true), (some 2, true)]).2 = 3 ∧
        (Terminal.Close
          (putAll (NewTerminal 5).1 [(some 0, true), (some 1, true), (some 2, true)]).2).1
          = none) ∧
      (queued (Terminal.Close
          (putAll (NewTerminal 5).1 [(some 0, true), (some 1, true), (some 2, true)]).2).2 = 0 ∧
        (getN putGetHeap (Terminal.Close
            (putAll (NewTerminal 5).1 [(some 0, true), (some 1, true), (some 2, true)]).2).2 3).1
          = List.replicate 3 (Outcome.ret (none, some GoError.ErrTerminalClosed)) ∧
        (getN putGetHeap (Terminal.Close
            (putAll (NewTerminal 5).1 [(some 0, true), (some 1, true), (some 2, true)]).2).2 3).2
          = (Terminal.Close
            (putAll (NewTerminal 5).1 [(some 0, true), (some 1, true), (some 2, true)]).2).2) :=
  ⟨⟨by decide, by decide⟩,
    Get_after_Close_never_drains putGetHeap
      (putAll (NewTerminal 5).1 [(some 0, true), (some 1, true), (some 2, true)]).2 3
      (by decide)⟩

/-- C12: for every terminal, once `Close` has succeeded, `Get` returns no order
together with `ErrTerminalClosed`, whatever was queued before the `Close`. -/
theorem Get_after_Close (h : Heap) (t : Option Terminal)
    (hok : (Terminal.Close t).1 = none) :
    Terminal.Get h (Terminal.Close t).2
      = (Outcome.ret (none, some GoError.ErrTerminalClosed), (Terminal.Close t).2) := by
  obtain ⟨tt, _, _, hc⟩ := Close_ok_shape t hok
  rw [hc]
  exact Get_of_done h _ rfl

/-- C12 at the run of `Test_ClosedTerminal`: a terminal of capacity 1, one
order put, `Close`, `Get`. -/
theorem Get_after_Close_witness :
    ((Terminal.Put (NewTerminal 1).1 (some 0) false).1 = Outcome.ret none ∧
        queued (Terminal.Put (NewTerminal 1).1 (some 0) false).2 = 1 ∧
        (Terminal.Close (Terminal.Put (NewTerminal 1).1 (some 0) false).2).1 = none) ∧
      Terminal.Get putGetHeap (Terminal.Close (Terminal.Put (NewTerminal 1).1 (some 0) false).2).2
        = (Outcome.ret (none, some GoError.ErrTerminalClosed),
            (Terminal.Close (Terminal.Put (NewTerminal 1).1 (some 0) false).2).2) :=
  ⟨by decide,
    Get_after_Close putGetHeap (Terminal.Put (NewTerminal 1).1 (some 0) false).2 (by decide)⟩

/-- On a terminal whose capacity is not 0, a `Put` of a non-nil order after a
successful `Close` fails with `ErrTerminalClosed` and leaves the terminal as it
is. -/
theorem Put_after_Close_of_capacity_ne_zero (t : Option Terminal) (p : Nat) (pick : Bool)
    (hok : (Terminal.Close t).1 = none) (hcap : ∀ tt, t = some tt → tt.capacity ≠ 0) :
    Terminal.Put (Terminal.Close t).2 (some p) pick
      = (Outcome.ret (some GoError.ErrTerminalClosed), (Terminal.Close t).2) := by
  obtain ⟨tt, ht, _, hc⟩ := Close_ok_shape t hok
  have h0 : ¬ (0 : Int) = tt.capacity := fun h => hcap tt ht h.symm
  rw [hc]
  simp [Terminal.Put, Terminal.len, h0]

/-- C13 (the code against the claim): on the terminal `NewTerminal(0)`, which is
created without error, `Close` succeeds and a later `Put` of a non-nil order
does not return `ErrTerminalClosed`: the length 0 of the nil channel equals the
capacity 0, so the call waits in its loop and never reaches the `select`. -/
theorem Put_after_Close_capacity_zero (p : Nat) (pick : Bool) :
    (NewTerminal 0).2 = none ∧
      (Terminal.Close (NewTerminal 0).1).1 = none ∧
      Terminal.Put (Terminal.Close (NewTerminal 0).1).2 (some p) pick
        = (Outcome.blocks, (Terminal.Close (NewTerminal 0).1).2) := by
  refine ⟨by decide, by decide, ?_⟩
  simp [Terminal.Put, Terminal.Close, NewTerminal, Terminal.len]

/-! ### Bounded capacity -/

theorem madeBy_NewTerminal (c : Int) (hc : 0 ≤ c) : madeBy c (NewTerminal c).1 := by
  rw [NewTerminal_eq c hc]
  exact ⟨openTerminal c [], rfl, rfl, Or.inr ⟨rfl, _, rfl, rfl, Nat.zero_le _⟩⟩

theorem madeBy_Put (c : Int) (hc : 0 ≤ c) (t : Option Terminal) (hm : madeBy c t)
    (order : OrderPtr) (pick : Bool) : madeBy c (Terminal.Put t order pick).2 := by
  obtain ⟨tt, rfl, hcap, hshape⟩ := hm
  cases order with
  | none => exact ⟨tt, rfl, hcap, hshape⟩
  | some p =>
    rcases hshape with ⟨hd, ho⟩ | ⟨hd, ch, ho, hcc, hlen⟩
    · refine ⟨tt, ?_, hcap, Or.inl ⟨hd, ho⟩⟩
      simp only [Terminal.Put, Terminal.len, ho, hd]
      split <;> rfl
    · by_cases hfull : (ch.buf.length : Int) = tt.capacity
      · refine ⟨tt, ?_, hcap, Or.inr ⟨hd, ch, ho, hcc, hlen⟩⟩
        simp [Terminal.Put, Terminal.len, ho, hfull]
      · have hroom : ch.buf.length < ch.cap := by omega
        refine ⟨{ tt with orders := some { ch with buf := ch.buf ++ [some p] } }, ?_, hcap,
          Or.inr ⟨hd, _, rfl, hcc, ?_⟩⟩
        · simp [Terminal.Put, Terminal.len, ho, hfull, hroom, hd]
        · simp only [List.length_append, List.length_singleton]
          omega

theorem madeBy_Get (c : Int) (t : Option Terminal) (hm : madeBy c t) (h : Heap) :
    madeBy c (Terminal.Get h t).2 := by
  obtain ⟨tt, rfl, hcap, hshape⟩ := hm
  rcases hshape with ⟨hd, ho⟩ | ⟨hd, ch, ho, hcc, hlen⟩
  · rw [Get_of_done h tt hd]
    exact ⟨tt, rfl, hcap, Or.inl ⟨hd, ho⟩⟩
  · cases hb : ch.buf with
    | nil =>
      refine ⟨tt, ?_, hcap, Or.inr ⟨hd, ch, ho, hcc, hlen⟩⟩
      simp [Terminal.Get, hd, ho, hb]
    | cons o rest =>
      have hlen1 : rest.length ≤ ch.cap := by
        rw [hb, List.length_cons] at hlen
        omega
      refine ⟨{ tt with orders := some { ch with buf := rest } }, ?_, hcap,
        Or.inr ⟨hd, _, rfl, hcc, hlen1⟩⟩
      cases o with
      | none => simp [Terminal.Get, hd, ho, hb]
      | some p =>
        simp only [Terminal.Get, hd, ho, hb, Order.IsCancelled]
        cases (h p).ctx with
        | none => simp
        | some b => cases b <;> simp

theorem madeBy_Close (c : Int) (t : Option Terminal) (hm : madeBy c t) :
    madeBy c (Terminal.Close t).2 := by
  obtain ⟨tt, rfl, hcap, hshape⟩ := hm
  unfold Terminal.Close
  dsimp only
  by_cases hd : tt.done = true
  · rw [if_pos hd]
    exact ⟨tt, rfl, hcap, hshape⟩
  · rw [if_neg hd]
    exact ⟨_, rfl, hcap, Or.inl ⟨rfl, rfl⟩⟩

theorem madeBy_runOps (c : Int) (hc : 0 ≤ c) (ops : List TerminalOp) (t : Option Terminal)
    (hm : madeBy c t) : madeBy c (runOps t ops) := by
  induction ops generalizing t with
  | nil => exact hm
  | cons op ops ih =>
    unfold runOps
    rw [List.foldl_cons]
    apply ih
    cases op with
    | put order pick => exact madeBy_Put c hc t hm order pick
    | get h => exact madeBy_Get c t hm h
    | close => exact madeBy_Close c t hm

theorem madeBy_queued_le (c : Int) (hc : 0 ≤ c) (t : Option Terminal) (hm : madeBy c t) :
    queued t ≤ c := by
  obtain ⟨tt, rfl, hcap, hshape⟩ := hm
  rcases hshape with ⟨_, ho⟩ | ⟨_, ch, ho, hcc, hlen⟩
  · simp only [queued, Terminal.len, ho]
    exact hc
  · simp only [queued, Terminal.len, ho]
    omega

theorem madeBy_Put_full (c : Int) (t : Option Terminal) (hm : madeBy c t)
    (hfull : queued t = c) (p : Nat) (pick : Bool) :
    Terminal.Put t (some p) pick = (Outcome.blocks, t) := by
  obtain ⟨tt, rfl, hcap, _⟩ := hm
  have hlen : tt.len = tt.capacity := by
    rw [hcap]
    exact hfull
  simp [Terminal.Put, hlen]

theorem madeBy_Put_after_Get (c : Int) (hc : 0 ≤ c) (t : Option Terminal) (hm : madeBy c t)
    (hfull : queued t = c) (h : Heap) (hless : queued (Terminal.Get h t).2 < c)
    (p : Nat) (pick : Bool) :
    (Terminal.Put (Terminal.Get h t).2 (some p) pick).1 = Outcome.ret none ∧
      queued (Terminal.Put (Terminal.Get h t).2 (some p) pick).2
        = queued (Terminal.Get h t).2 + 1 := by
  have hm1 := madeBy_Get c t hm h
  obtain ⟨tt, rfl, hcap, hshape⟩ := hm
  rcases hshape with ⟨hd, ho⟩ | ⟨hd, ch, ho, hcc, hlen⟩
  · rw [Get_of_done h tt hd] at hless
    simp only [queued, Terminal.len, ho] at hfull hless
    omega
  · obtain ⟨t1, ht1, hcap1, hshape1⟩ := hm1
    rw [ht1] at hless ⊢
    rcases hshape1 with ⟨hd1, _⟩ | ⟨hd1, ch1, ho1, hcc1, hlen1⟩
    · exfalso
      cases hb : ch.buf with
      | nil =>
        simp [Terminal.Get, hd, ho, hb] at ht1
        rw [← ht1] at hd1
        rw [hd] at hd1
        exact Bool.noConfusion hd1
      | cons o rest =>
        have : (Terminal.Get h (some tt)).2
            = some { tt with orders := some { ch with buf := rest } } := by
          cases o with
          | none => simp [Terminal.Get, hd, ho, hb]
          | some q =>
            simp only [Terminal.Get, hd, ho, hb, Order.IsCancelled]
            cases (h q).ctx with
            | none => simp
            | some b => cases b <;> simp
        rw [this] at ht1
        injection ht1 with ht1
        rw [← ht1] at hd1
        dsimp only at hd1
        rw [hd] at hd1
        exact Bool.noConfusion hd1
    · simp only [queued, Terminal.len, ho1] at hless
      have hne : ¬ ((ch1.buf.length : Int) = t1.capacity) := by omega
      have hroom : ch1.buf.length < ch1.cap := by omega
      simp [Terminal.Put, Terminal.len, ho1, hne, hroom, hd1, queued]

/-- C14: bounded capacity.  In every state that a sequence of `Put`, `Get` and
`Close` calls makes out of `NewTerminal(c)` the number of queued orders is at
most `c`; a `Put` issued while the queue holds `c` orders inserts nothing and
waits; and once a `Get` has removed an order from such a full queue, a `Put`
returns nil and inserts exactly one order. -/
theorem Terminal_bounded_capacity (c : Int) (hc : 0 ≤ c) (ops : List TerminalOp) :
    queued (runOps (NewTerminal c).1 ops) ≤ c ∧
      (queued (runOps (NewTerminal c).1 ops) = c → ∀ (p : Nat) (pick : Bool),
        Terminal.Put (runOps (NewTerminal c).1 ops) (some p) pick
          = (Outcome.blocks, runOps (NewTerminal c).1 ops)) ∧
      (queued (runOps (NewTerminal c).1 ops) = c → ∀ (h : Heap) (p : Nat) (pick : Bool),
        queued (Terminal.Get h (runOps (NewTerminal c).1 ops)).2 < c →
        (Terminal.Put (Terminal.Get h (runOps (NewTerminal c).1 ops)).2 (some p) pick).1
            = Outcome.ret none ∧
          queued (Terminal.Put (Terminal.Get h (runOps (NewTerminal c).1 ops)).2 (some p) pick).2
            = queued (Terminal.Get h (runOps (NewTerminal c).1 ops)).2 + 1) := by
  have hm := madeBy_runOps c hc ops _ (madeBy_NewTerminal c hc)
  exact ⟨madeBy_queued_le c hc _ hm, fun hfull p pick => madeBy_Put_full c _ hm hfull p pick,
    fun hfull h p pick hless => madeBy_Put_after_Get c hc _ hm hfull h hless p pick⟩

/-- C14 at a terminal of capacity 1 that holds one order. -/
theorem Terminal_bounded_capacity_witness :
    (0 : Int) ≤ 1 ∧
      (queued (runOps (NewTerminal 1).1 [TerminalOp.put (some 0) true]) ≤ 1 ∧
      (queued (runOps (NewTerminal 1).1 [TerminalOp.put (some 0) true]) = 1 →
        ∀ (p : Nat) (pick : Bool),
        Terminal.Put (runOps (NewTerminal 1).1 [TerminalOp.put (some 0) true]) (some p) pick
          = (Outcome.blocks, runOps (NewTerminal 1).1 [TerminalOp.put (some 0) true])) ∧
      (queued (runOps (NewTerminal 1).1 [TerminalOp.put (some 0) true]) = 1 →
        ∀ (h : Heap) (p : Nat) (pick : Bool),
        queued (Terminal.Get h (runOps (NewTerminal 1).1 [TerminalOp.put (some 0) true])).2 < 1 →
        (Terminal.Put (Terminal.Get h
            (runOps (NewTerminal 1).1 [TerminalOp.put (some 0) true])).2 (some p) pick).1
            = Outcome.ret none ∧
          queued (Terminal.Put (Terminal.Get h
            (runOps (NewTerminal 1).1 [TerminalOp.put (some 0) true])).2 (some p) pick).2
            = queued (Terminal.Get h
                (runOps (NewTerminal 1).1 [TerminalOp.put (some 0) true])).2 + 1)) :=
  ⟨by decide, Terminal_bounded_capacity 1 (by decide) [TerminalOp.put (some 0) true]⟩

/-- A run on a terminal of capacity 1: the first `Put` inserts, the second
waits with the queue unchanged, a `Get` removes the order, and the `Put` that
follows inserts. -/
theorem capacity_one_run :
    (Terminal.Put (NewTerminal 1).1 (some 0) true).1 = Outcome.ret none ∧
      Terminal.Put (Terminal.Put (NewTerminal 1).1 (some 0) true).2 (some 1) true
        = (Outcome.blocks, (Terminal.Put (NewTerminal 1).1 (some 0) true).2) ∧
      (Terminal.Get putGetHeap (Terminal.Put (NewTerminal 1).1 (some 0) true).2).1
        = Outcome.ret (some 0, none) ∧
      (Terminal.Put (Terminal.Get putGetHeap
          (Terminal.Put (NewTerminal 1).1 (some 0) true).2).2 (some 1) true)
        = (Outcome.ret none, some (openTerminal 1 [some 1])) := by
  decide

/-! ### Cancelled orders in `Get` -/

/-- C15: for every open terminal whose oldest queued order has its cancellation
already signaled, `Get` removes that order from the queue and returns that same
non-nil order together with `ErrOrderCancelled`; for an oldest order that is
not cancelled `Get` removes and returns it with a nil error. -/
theorem Get_oldest_order (h : Heap) (t : Terminal) (ch : Chan) (p : Nat)
    (rest : List OrderPtr) (hopen : t.done = false) (ho : t.orders = some ch)
    (hb : ch.buf = some p :: rest) :
    ((h p).ctx = some true →
        Terminal.Get h (some t)
          = (Outcome.ret (some p, some GoError.ErrOrderCancelled),
              some { t with orders := some { ch with buf := rest } })) ∧
      ((h p).ctx = some false →
        Terminal.Get h (some t)
          = (Outcome.ret (some p, none),
              some { t with orders := some { ch with buf := rest } })) := by
  constructor
  · intro hc
    simp [Terminal.Get, hopen, ho, hb, Order.IsCancelled, hc]
  · intro hc
    simp [Terminal.Get, hopen, ho, hb, Order.IsCancelled, hc]

/-- C15 at the terminal of `Test_CancelledOrder`: capacity 1, one order. -/
theorem Get_oldest_order_witness :
    ((openTerminal 1 [some 0]).done = false ∧
        (openTerminal 1 [some 0]).orders = some ⟨[some 0], 1⟩ ∧
        (⟨[some 0], 1⟩ : Chan).buf = some 0 :: []) ∧
      (((Order.Cancel putGetHeap (some 0)).2 0).ctx = some true →
          Terminal.Get (Order.Cancel putGetHeap (some 0)).2 (some (openTerminal 1 [some 0]))
            = (Outcome.ret (some 0, some GoError.ErrOrderCancelled),
                some { openTerminal 1 [some 0] with
                  orders := some { (⟨[some 0], 1⟩ : Chan) with buf := [] } })) ∧
      (((Order.Cancel putGetHeap (some 0)).2 0).ctx = some false →
          Terminal.Get (Order.Cancel putGetHeap (some 0)).2 (some (openTerminal 1 [some 0]))
            = (Outcome.ret (some 0, none),
                some { openTerminal 1 [some 0] with
                  orders := some { (⟨[some 0], 1⟩ : Chan) with buf := [] } })) :=
  ⟨by decide,
    Get_oldest_order (Order.Cancel putGetHeap (some 0)).2 (openTerminal 1 [some 0])
      ⟨[some 0], 1⟩ 0 [] (by decide) (by decide) (by decide)⟩

/-- The run of `Test_CancelledOrder`: `Put`, `Cancel`, `Get`. -/
theorem Test_CancelledOrder_run :
    (Terminal.Put (NewTerminal 1).1 (some 0) true).1 = Outcome.ret none ∧
      (Order.Cancel putGetHeap (some 0)).1 = none ∧
      Terminal.Get (Order.Cancel putGetHeap (some 0)).2
          (Terminal.Put (NewTerminal 1).1 (some 0) true).2
        = (Outcome.ret (some 0, some GoError.ErrOrderCancelled), some (openTerminal 1 [])) := by
  decide

end terminals

namespace workers

open orders terminals cashregister

/-! ### Claims about the loop of `Worker.Run` -/

theorem Get_some_order (h : Heap) (t t1 : Option Terminal) (p : Nat) (e : Option GoError)
    (hget : Terminal.Get h t = (Outcome.ret (some p, e), t1)) :
    e = none ∨ e = some GoError.ErrOrderCancelled := by
  cases t with
  | none => simp [Terminal.Get] at hget
  | some tt =>
    unfold Terminal.Get at hget
    dsimp only at hget
    split at hget
    · simp at hget
    · split at hget
      · simp at hget
      · split at hget
        · simp at hget
        · split at hget
          · simp at hget
          · split at hget
            · split at hget
              · simp only [Prod.mk.injEq, Outcome.ret.injEq] at hget
                exact Or.inr hget.1.2.symm
              · split at hget
                · simp at hget
                · simp only [Prod.mk.injEq, Outcome.ret.injEq] at hget
                  exact Or.inl hget.1.2.symm
            · simp at hget
            · simp at hget

theorem switchErr_of_order (e : Option GoError)
    (he : e = none ∨ e = some GoError.ErrOrderCancelled) : switchErr e = SwitchExit.proceed := by
  rcases he with rfl | rfl <;> rfl

theorem Price_pos_isInt64 (ty : pkg.OrderType) : 0 < ty.Price ∧ isInt64 ty.Price := by
  cases ty <;> exact ⟨by decide, by decide⟩

theorem Validate_ok_ge (o : Order) (ty : pkg.OrderType)
    (hty : pkg.GetOrderType o.OrderType = some ty) (hv : Order.Validate (some o) = none) :
    ty.Price ≤ o.Inserted := by
  unfold Order.Validate at hv
  simp only [hty] at hv
  by_contra hlt
  rw [if_pos (by omega)] at hv
  simp at hv

/-- C17: for every dequeued non-nil order that fails `Validate` and whose
result slot is still empty, one iteration of the worker loop sets the order's
`Error` to exactly the validation error, sends on `Ready`, leaves the stock of
the cash register unchanged and goes on with the next iteration. -/
theorem iteration_invalid_order (w : World) (p : Nat) (e : Option GoError)
    (t1 : Option Terminal) (verr : GoError)
    (hget : Terminal.Get w.heap w.terminal = (Outcome.ret (some p, e), t1))
    (hinv : Order.Validate (some (w.heap p)) = some verr)
    (hslot : (w.heap p).status.Ready = []) :
    (iteration w).isContinue = true ∧
      ((iteration w).world.heap p).status.Error = some verr ∧
      ((iteration w).world.heap p).status.Ready = [false] ∧
      ((iteration w).world.heap p).status.Returned = (w.heap p).status.Returned ∧
      (iteration w).world.stocks = w.stocks ∧
      (iteration w).world.terminal = t1 := by
  have hsw := switchErr_of_order e (Get_some_order _ _ _ _ _ hget)
  unfold iteration
  rw [hget]
  simp only [hsw, deref, Option.map_some', hinv, sendReady, setError, Function.update_same,
    hslot, List.length_nil, Nat.lt_one_iff, if_true, List.nil_append, LoopStep.isContinue,
    LoopStep.world]
  simp

/-- C17 at the order of `Test_InvalidOrder`: vegan with 20 inserted. -/
theorem iteration_invalid_order_witness :
    (Terminal.Get (oneOrderWorld 20 Vegan).heap (oneOrderWorld 20 Vegan).terminal
          = (Outcome.ret (some 0, none), some (openTerminal 1 [])) ∧
        Order.Validate (some ((oneOrderWorld 20 Vegan).heap 0))
          = some (GoError.ErrInvalidOrder 20 30) ∧
        ((oneOrderWorld 20 Vegan).heap 0).status.Ready = []) ∧
      ((iteration (oneOrderWorld 20 Vegan)).isContinue = true ∧
        ((iteration (oneOrderWorld 20 Vegan)).world.heap 0).status.Error
          = some (GoError.ErrInvalidOrder 20 30) ∧
        ((iteration (oneOrderWorld 20 Vegan)).world.heap 0).status.Ready = [false] ∧
        ((iteration (oneOrderWorld 20 Vegan)).world.heap 0).status.Returned
          = ((oneOrderWorld 20 Vegan).heap 0).status.Returned ∧
        (iteration (oneOrderWorld 20 Vegan)).world.stocks = (oneOrderWorld 20 Vegan).stocks ∧
        (iteration (oneOrderWorld 20 Vegan)).world.terminal = some (openTerminal 1 [])) :=
  ⟨by decide,
    iteration_invalid_order (oneOrderWorld 20 Vegan) 0 none (some (openTerminal 1 []))
      (GoError.ErrInvalidOrder 20 30) (by decide) (by decide) (by decide)⟩

/-- The invalid orders of the end-to-end properties: vegan with 10 inserted and
"burger" with 50 inserted. -/
theorem invalid_order_runs :
    ((iteration (oneOrderWorld 10 Vegan)).world.heap 0).status.Error
        = some (GoError.ErrInvalidOrder 10 30) ∧
      ((iteration (oneOrderWorld 50 "burger")).world.heap 0).status.Error
        = some GoError.ErrInvalidOrderType ∧
      ((iteration (oneOrderWorld 10 Vegan)).world.heap 0).status.Ready = [false] ∧
      ((iteration (oneOrderWorld 50 "burger")).world.heap 0).status.Ready = [false] := by
  decide

/-- C16: for every valid, non-cancelled order with an empty result slot and no
error that is the oldest of an open terminal and whose payment succeeds, one
iteration of the worker loop goes on with the next iteration and leaves the
order with `Error = nil` and `Returned` equal to the result of
`Pay(price of its kind, Inserted)`, so `Returned.Cents = Inserted - price`; the
stock is the one `Pay` leaves. -/
theorem iteration_paid_order (w : World) (t : Terminal) (ch : Chan) (p : Nat)
    (rest : List OrderPtr) (ty : pkg.OrderType)
    (ht : w.terminal = some t) (hopen : t.done = false) (ho : t.orders = some ch)
    (hb : ch.buf = some p :: rest) (hctx : (w.heap p).ctx = some false)
    (hty : pkg.GetOrderType (w.heap p).OrderType = some ty)
    (hvalid : Order.Validate (some (w.heap p)) = none)
    (hslot : (w.heap p).status.Ready = []) (herr : (w.heap p).status.Error = none)
    (hins : isInt64 (w.heap p).Inserted)
    (hpay : (Pay w.stocks ty.Price (w.heap p).Inserted).err = none) :
    (iteration w).isContinue = true ∧
      ((iteration w).world.heap p).status.Error = none ∧
      ((iteration w).world.heap p).status.Returned
        = (Pay w.stocks ty.Price (w.heap p).Inserted).returned ∧
      ((iteration w).world.heap p).status.Returned.Cents = (w.heap p).Inserted - ty.Price ∧
      (iteration w).world.stocks = (Pay w.stocks ty.Price (w.heap p).Inserted).stocks := by
  have hget := (Get_oldest_order w.heap t ch p rest hopen ho hb).2 hctx
  have hcents := (Pay_success_returned w.stocks ty.Price (w.heap p).Inserted
    (Price_pos_isInt64 ty).2 hins (Price_pos_isInt64 ty).1
    (Validate_ok_ge _ ty hty hvalid) hpay).1
  unfold iteration
  rw [ht, hget]
  simp only [switchErr, deref, Option.map_some', hvalid, Order.IsCancelled, hctx,
    Terminal.IsClosed, hopen, hty, hpay, sendReady, hslot, setReturned]
  simp [LoopStep.isContinue, LoopStep.world, herr, hcents]

/-- C16 at the order of the end-to-end property: vegan with 50 inserted, on the
fresh stock. -/
theorem iteration_paid_order_witness :
    ((oneOrderWorld 50 Vegan).terminal = some (openTerminal 1 [some 0]) ∧
        (openTerminal 1 [some 0]).done = false ∧
        (openTerminal 1 [some 0]).orders = some ⟨[some 0], 1⟩ ∧
        (⟨[some 0], 1⟩ : Chan).buf = some 0 :: [] ∧
        ((oneOrderWorld 50 Vegan).heap 0).ctx = some false ∧
        pkg.GetOrderType ((oneOrderWorld 50 Vegan).heap 0).OrderType = some pkg.OrderType.Vegan ∧
        Order.Validate (some ((oneOrderWorld 50 Vegan).heap 0)) = none ∧
        ((oneOrderWorld 50 Vegan).heap 0).status.Ready = [] ∧
        ((oneOrderWorld 50 Vegan).heap 0).status.Error = none ∧
        isInt64 ((oneOrderWorld 50 Vegan).heap 0).Inserted ∧
        (Pay (oneOrderWorld 50 Vegan).stocks pkg.OrderType.Vegan.Price
          ((oneOrderWorld 50 Vegan).heap 0).Inserted).err = none) ∧
      ((iteration (oneOrderWorld 50 Vegan)).isContinue = true ∧
        ((iteration (oneOrderWorld 50 Vegan)).world.heap 0).status.Error = none ∧
        ((iteration (oneOrderWorld 50 Vegan)).world.heap 0).status.Returned
          = (Pay (oneOrderWorld 50 Vegan).stocks pkg.OrderType.Vegan.Price
              ((oneOrderWorld 50 Vegan).heap 0).Inserted).returned ∧
        ((iteration (oneOrderWorld 50 Vegan)).world.heap 0).status.Returned.Cents
          = ((oneOrderWorld 50 Vegan).heap 0).Inserted - pkg.OrderType.Vegan.Price ∧
        (iteration (oneOrderWorld 50 Vegan)).world.stocks
          = (Pay (oneOrderWorld 50 Vegan).stocks pkg.OrderType.Vegan.Price
              ((oneOrderWorld 50 Vegan).heap 0).Inserted).stocks) :=
  ⟨by decide,
    iteration_paid_order (oneOrderWorld 50 Vegan) (openTerminal 1 [some 0]) ⟨[some 0], 1⟩ 0 []
      pkg.OrderType.Vegan (by decide) (by decide) (by decide) (by decide) (by decide)
      (by decide) (by decide) (by decide) (by decide) (by decide) (by decide)⟩

/-- The end-to-end runs of the valid orders: vegan with 50 inserted ends with
`Returned = {20, "20 Cent"}`, and the order of `Test_Run`, vegan with 40
inserted, ends with no error. -/
theorem paid_order_runs :
    ((iteration (oneOrderWorld 50 Vegan)).world.heap 0).status.Returned = ⟨20, "20 Cent"⟩ ∧
      ((iteration (oneOrderWorld 50 Vegan)).world.heap 0).status.Error = none ∧
      ((iteration (oneOrderWorld 40 Vegan)).world.heap 0).status.Error = none ∧
      ((iteration (oneOrderWorld 40 Vegan)).world.heap 0).status.Returned = ⟨10, "10 Cent"⟩ ∧
      Order.WaitWithTimeout (some ((iteration (oneOrderWorld 40 Vegan)).world.heap 0)) false
        = Outcome.ret [none] := by
  decide

/-- C18 (the code against the claim): the order vegan with 10 inserted is put
into the terminal and cancelled before the worker dequeues it.  `Get` hands it
to the worker with `ErrOrderCancelled`, the case for that error in the `switch`
has no statement, and the iteration goes on to `Validate`: the worker writes
`ErrInvalidOrder{10, 30}` to `Error` and sends on `Ready`, so `WaitWithTimeout`
has both the cancellation and the result ready and may return nil. -/
theorem cancelled_invalid_order_gets_result :
    ((cancelledOrderWorld 10 Vegan).heap 0).ctx = some true ∧
      ((cancelledOrderWorld 10 Vegan).heap 0).status = ⟨[], none, ReturnedAmount.empty⟩ ∧
      (Terminal.Get (cancelledOrderWorld 10 Vegan).heap (cancelledOrderWorld 10 Vegan).terminal).1
        = Outcome.ret (some 0, some GoError.ErrOrderCancelled) ∧
      switchErr (some GoError.ErrOrderCancelled) = SwitchExit.proceed ∧
      (iteration (cancelledOrderWorld 10 Vegan)).isContinue = true ∧
      ((iteration (cancelledOrderWorld 10 Vegan)).world.heap 0).status.Error
        = some (GoError.ErrInvalidOrder 10 30) ∧
      ((iteration (cancelledOrderWorld 10 Vegan)).world.heap 0).status.Ready = [false] ∧
      Order.WaitWithTimeout (some ((iteration (cancelledOrderWorld 10 Vegan)).world.heap 0)) false
        = Outcome.ret [some GoError.ErrOrderCancelled, none] := by
  decide

/-- The run of `Test_CancelledOrderByCustomer`: a valid order, vegan with 40
inserted, cancelled before the worker dequeues it, gets no result and no
payment is made. -/
theorem cancelled_valid_order_run :
    (iteration (cancelledOrderWorld 40 Vegan)).isContinue = true ∧
      ((iteration (cancelledOrderWorld 40 Vegan)).world.heap 0).status
        = ⟨[], none, ReturnedAmount.empty⟩ ∧
      (denominations.map (iteration (cancelledOrderWorld 40 Vegan)).world.stocks)
        = denominations.map cashregister.stocks ∧
      Order.WaitWithTimeout (some ((iteration (cancelledOrderWorld 40 Vegan)).world.heap 0)) false
        = Outcome.ret [some GoError.ErrOrderCancelled] := by
  decide

/-- C20 (the code against the claim): for the valid, non-cancelled order vegan
with 50 inserted, whose payment succeeds on the fresh stock, the value the
worker sends on `Ready` is `false`, the same value it sends for an order that
ends with an error. -/
theorem success_sends_false_on_Ready :
    Order.Validate (some ((oneOrderWorld 50 Vegan).heap 0)) = none ∧
      ((oneOrderWorld 50 Vegan).heap 0).ctx = some false ∧
      (Pay (oneOrderWorld 50 Vegan).stocks 30 50).err = none ∧
      (iteration (oneOrderWorld 50 Vegan)).isContinue = true ∧
      ((iteration (oneOrderWorld 50 Vegan)).world.heap 0).status
        = ⟨[false], none, ⟨20, "20 Cent"⟩⟩ ∧
      ((iteration (oneOrderWorld 20 Vegan)).world.heap 0).status
        = ⟨[false], some (GoError.ErrInvalidOrder 20 30), ReturnedAmount.empty⟩ := by
  decide

end workers

namespace cashregister

/-! ### The greedy pass on the fixed denominations takes the fewest pieces -/

theorem fewest125_add_le (b d : Int) (hd : d = 5 ∨ d = 2 ∨ d = 1) :
    fewest125 (b + d) ≤ fewest125 b + 1 := by
  unfold fewest125
  rcases hd with rfl | rfl | rfl <;> omega

theorem fewest125_carry (b d : Int) (hd : d = 5 ∨ d = 2 ∨ d = 1) :
    ((b + d) / 10 = b / 10 ∧ fewest125 ((b + d) % 10) ≤ fewest125 (b % 10) + 1) ∨
      ((b + d) / 10 = b / 10 + 1 ∧ fewest125 ((b + d) % 10) ≤ fewest125 (b % 10)) := by
  unfold fewest125
  rcases hd with rfl | rfl | rfl <;> omega

theorem greedyPieces_three (x y z : Int) (rest : List Int) (a : Int) :
    greedyPieces (x :: y :: z :: rest) a
      = (a / x + a % x / y + a % x % y / z) + greedyPieces rest (a % x % y % z) := by
  simp only [greedyPieces]
  omega

theorem stage1000 (a : Int) :
    a / 5000 + a % 5000 / 2000 + a % 5000 % 2000 / 1000 = fewest125 (a / 1000) ∧
      a % 5000 % 2000 % 1000 = a % 1000 := by
  unfold fewest125
  omega

theorem stage100 (a : Int) :
    a / 500 + a % 500 / 200 + a % 500 % 200 / 100 = fewest125 (a / 100) ∧
      a % 500 % 200 % 100 = a % 100 := by
  unfold fewest125
  omega

theorem stage10 (a : Int) :
    a / 50 + a % 50 / 20 + a % 50 % 20 / 10 = fewest125 (a / 10) ∧
      a % 50 % 20 % 10 = a % 10 := by
  unfold fewest125
  omega

theorem stage1 (a : Int) :
    a / 5 + a % 5 / 2 + a % 5 % 2 / 1 = fewest125 a ∧ a % 5 % 2 % 1 = 0 := by
  unfold fewest125
  omega

theorem greedyPieces_denominations (a : Int) :
    greedyPieces denominations a = levelPieces 3 a := by
  unfold denominations
  rw [greedyPieces_three, (stage1000 a).1, (stage1000 a).2,
    greedyPieces_three, (stage100 _).1, (stage100 _).2,
    greedyPieces_three, (stage10 _).1, (stage10 _).2,
    greedyPieces_three, (stage1 _).1, (stage1 _).2]
  simp only [levelPieces, greedyPieces]
  have e1 : a / 10 / 10 / 10 = a / 1000 := by omega
  have e2 : a / 10 / 10 % 10 = a % 1000 / 100 := by omega
  have e3 : a / 10 % 10 = a % 1000 % 100 / 10 := by omega
  have e4 : a % 10 = a % 1000 % 100 % 10 := by omega
  rw [e1, e2, e3, ← e4]
  omega

theorem one_mem_levelDenominations (k : Nat) : (1 : Int) ∈ levelDenominations k := by
  cases k <;> simp [levelDenominations]

theorem levelPieces_add_le (k : Nat) :
    ∀ (b d : Int), d ∈ levelDenominations k → levelPieces k (b + d) ≤ levelPieces k b + 1 := by
  induction k with
  | zero =>
    intro b d hd
    simp only [levelDenominations, List.mem_cons, List.mem_singleton, List.not_mem_nil,
      or_false] at hd
    exact fewest125_add_le b d hd
  | succ k ih =>
    intro b d hd
    simp only [levelDenominations, List.mem_append, List.mem_map, List.mem_cons,
      List.mem_singleton, List.not_mem_nil, or_false] at hd
    simp only [levelPieces]
    rcases hd with ⟨e, he, rfl⟩ | h
    · have h1 : (b + e * 10) / 10 = b / 10 + e := by omega
      have h2 : (b + e * 10) % 10 = b % 10 := by omega
      rw [h1, h2]
      have := ih (b / 10) e he
      omega
    · rcases fewest125_carry b d h with ⟨hq, hf⟩ | ⟨hq, hf⟩
      · rw [hq]
        omega
      · rw [hq]
        have := ih (b / 10) 1 (one_mem_levelDenominations k)
        omega

theorem levelPieces_add_mul_le (k : Nat) (b d : Int) (hd : d ∈ levelDenominations k) (n : Nat) :
    levelPieces k (b + n * d) ≤ levelPieces k b + n := by
  induction n with
  | zero => simp
  | succ n ih =>
    have h := levelPieces_add_le k (b + n * d) d hd
    have e : b + ((n + 1 : Nat) : Int) * d = b + n * d + d := by push_cast; ring
    rw [e]
    push_cast
    omega

theorem levelPieces_zero (k : Nat) : levelPieces k 0 = 0 := by
  induction k with
  | zero => decide
  | succ k ih =>
    simp only [levelPieces]
    rw [show (0 : Int) / 10 = 0 from rfl, ih]
    decide

theorem levelPieces_sum_le (k : Nat) (sel : Int → Int) (ds : List Int)
    (hds : ∀ d ∈ ds, d ∈ levelDenominations k) (hsel : ∀ d ∈ ds, 0 ≤ sel d) :
    levelPieces k (ds.map (fun d => sel d * d)).sum ≤ (ds.map sel).sum := by
  induction ds with
  | nil => simp [levelPieces_zero]
  | cons d ds ih =>
    have h1 := ih (fun x hx => hds x (List.mem_cons_of_mem _ hx))
      (fun x hx => hsel x (List.mem_cons_of_mem _ hx))
    have h2 := levelPieces_add_mul_le k (ds.map (fun d => sel d * d)).sum d
      (hds d (List.mem_cons_self _ _)) (sel d).toNat
    have h3 : ((sel d).toNat : Int) = sel d := Int.toNat_of_nonneg (hsel d (List.mem_cons_self _ _))
    rw [h3] at h2
    simp only [List.map_cons, List.sum_cons]
    rw [add_comm (sel d * d)]
    omega

theorem denominations_level : ∀ d ∈ denominations, d ∈ levelDenominations 3 := by decide

/-! ### The loop of `Pay` when no stock limits it -/

theorem greedyPieces_zero (ds : List Int) : greedyPieces ds 0 = 0 := by
  induction ds with
  | nil => rfl
  | cons d ds ih => simp [greedyPieces, ih]

theorem foldl_emod_zero (ds : List Int) : ds.foldl (fun a d => a % d) 0 = 0 := by
  induction ds with
  | nil => rfl
  | cons d ds ih => simp [List.foldl_cons, ih]

theorem payStep_unlimited (d : Int) (hd : 0 < d) (s : LoopState)
    (ha : 0 ≤ s.amount ∧ s.amount < 9223372036854775808) (hst : isInt64 (s.stocks d))
    (hq : wrapInt (s.amount.tdiv d) ≤ s.stocks d) :
    (payStep d s).amount = s.amount % d ∧
      (payStep d s).stocks = Function.update s.stocks d (s.stocks d - s.amount / d) ∧
      s.amount / d ≤ s.stocks d ∧ 0 ≤ s.amount / d := by
  obtain ⟨ha0, ha1⟩ := ha
  have hdiv : s.amount.tdiv d = s.amount / d := Int.tdiv_eq_ediv ha0 (le_of_lt hd)
  have hq0 : 0 ≤ s.amount / d := Int.ediv_nonneg ha0 (le_of_lt hd)
  have hq1 : s.amount / d ≤ s.amount := Int.ediv_le_self _ ha0
  have hqd : s.amount / d * d ≤ s.amount := Int.ediv_mul_le _ (ne_of_gt hd)
  have hqd0 : 0 ≤ s.amount / d * d := mul_nonneg hq0 (le_of_lt hd)
  have hwq : wrapInt (s.amount / d) = s.amount / d :=
    wrapInt_of_isInt64 (by unfold isInt64; omega)
  have hwqd : wrapInt (s.amount / d * d) = s.amount / d * d :=
    wrapInt_of_isInt64 (by unfold isInt64; omega)
  rw [hdiv, hwq] at hq
  have hmod : s.amount - s.amount / d * d = s.amount % d := by
    rw [Int.emod_def, mul_comm]
  have h1 : wrapInt (s.stocks d - s.amount / d) = s.stocks d - s.amount / d :=
    wrapInt_of_isInt64 (by unfold isInt64 at hst ⊢; omega)
  have h2 : wrapInt (s.amount - s.amount / d * d) = s.amount - s.amount / d * d :=
    wrapInt_of_isInt64 (by unfold isInt64; omega)
  unfold payStep
  dsimp only
  rw [hdiv, hwq, hwqd, if_pos hq]
  dsimp only
  rw [h1, h2, hmod]
  exact ⟨rfl, rfl, hq, hq0⟩

theorem payLoop_unlimited (ds : List Int) (hpos : ∀ d ∈ ds, 0 < d) (hnd : ds.Nodup)
    (s : LoopState) (ha : 0 ≤ s.amount ∧ s.amount < 9223372036854775808)
    (hst : ∀ d, isInt64 (s.stocks d)) (hnl : neverLimited ds s = true) :
    (ds.map (fun d => s.stocks d - (payLoop ds s).stocks d)).sum = greedyPieces ds s.amount ∧
      (∀ x, x ∉ ds → (payLoop ds s).stocks x = s.stocks x) ∧
      (payLoop ds s).amount = ds.foldl (fun a d => a % d) s.amount := by
  induction ds generalizing s with
  | nil => exact ⟨rfl, fun _ _ => rfl, rfl⟩
  | cons d rest ih =>
    have hd : 0 < d := hpos d (List.mem_cons_self _ _)
    have hdr : d ∉ rest := (List.nodup_cons.1 hnd).1
    unfold payLoop
    by_cases h0 : s.amount = 0
    · rw [if_pos h0, h0, greedyPieces_zero, foldl_emod_zero]
      exact ⟨by simp, fun _ _ => rfl, rfl⟩
    · rw [if_neg h0]
      unfold neverLimited at hnl
      rw [if_neg h0, Bool.and_eq_true, decide_eq_true_eq] at hnl
      obtain ⟨hq, hnl1⟩ := hnl
      obtain ⟨hamt, hstk, hqle, hq0⟩ := payStep_unlimited d hd s ha (hst d) hq
      have hmod0 : 0 ≤ s.amount % d := Int.emod_nonneg _ (ne_of_gt hd)
      have hmod1 : s.amount % d ≤ s.amount := by
        have := Int.emod_lt_of_pos s.amount hd
        have hqd : s.amount / d * d ≤ s.amount := Int.ediv_mul_le _ (ne_of_gt hd)
        have hqd0 : 0 ≤ s.amount / d * d := mul_nonneg hq0 (le_of_lt hd)
        have hdef : s.amount % d = s.amount - s.amount / d * d := by
          rw [Int.emod_def, mul_comm]
        omega
      have hst1 : ∀ x, isInt64 ((payStep d s).stocks x) := by
        intro x
        rw [hstk]
        by_cases hx : x = d
        · subst hx
          rw [Function.update_same]
          have := hst x
          unfold isInt64 at this ⊢
          omega
        · rw [Function.update_noteq hx]
          exact hst x
      obtain ⟨isum, iout, iamt⟩ :=
        ih (fun x hx => hpos x (List.mem_cons_of_mem _ hx)) (List.nodup_cons.1 hnd).2
          (payStep d s) (by rw [hamt]; omega) hst1 hnl1
      refine ⟨?_, ?_, ?_⟩
      · rw [List.map_cons, List.sum_cons, iout d hdr]
        have hrest : rest.map (fun x => s.stocks x - (payLoop rest (payStep d s)).stocks x)
            = rest.map (fun x => (payStep d s).stocks x
                - (payLoop rest (payStep d s)).stocks x) := by
          apply List.map_congr_left
          intro x hx
          have hxd : x ≠ d := fun h => hdr (h ▸ hx)
          rw [hstk, Function.update_noteq hxd]
        rw [hrest, isum, hamt, hstk, Function.update_same]
        simp only [greedyPieces]
        omega
      · intro x hx
        rw [List.mem_cons, not_or] at hx
        rw [iout x hx.2, hstk, Function.update_noteq hx.1]
      · rw [iamt, hamt, List.foldl_cons]

theorem payLoop_unlimited_value (ds : List Int) (hpos : ∀ d ∈ ds, 0 < d) (hnd : ds.Nodup)
    (s : LoopState) (ha : 0 ≤ s.amount ∧ s.amount < 9223372036854775808)
    (hst : ∀ d, isInt64 (s.stocks d)) (hnl : neverLimited ds s = true) :
    (∀ x, 0 ≤ s.stocks x - (payLoop ds s).stocks x) ∧
      (ds.map (fun d => (s.stocks d - (payLoop ds s).stocks d) * d)).sum
        = s.amount - (payLoop ds s).amount := by
  induction ds generalizing s with
  | nil =>
    refine ⟨fun x => ?_, ?_⟩
    · simp [payLoop]
    · simp [payLoop]
  | cons d rest ih =>
    have hd : 0 < d := hpos d (List.mem_cons_self _ _)
    have hdr : d ∉ rest := (List.nodup_cons.1 hnd).1
    by_cases h0 : s.amount = 0
    · have hsame : payLoop (d :: rest) s = s := by
        unfold payLoop
        rw [if_pos h0]
      rw [hsame]
      refine ⟨fun x => ?_, ?_⟩
      · simp
      · simp
    · have hstep : payLoop (d :: rest) s = payLoop rest (payStep d s) := by
        conv_lhs => unfold payLoop
        rw [if_neg h0]
      rw [hstep]
      unfold neverLimited at hnl
      rw [if_neg h0, Bool.and_eq_true, decide_eq_true_eq] at hnl
      obtain ⟨hq, hnl1⟩ := hnl
      obtain ⟨hamt, hstk, hqle, hq0⟩ := payStep_unlimited d hd s ha (hst d) hq
      have hdef : s.amount % d = s.amount - s.amount / d * d := by
        rw [Int.emod_def, mul_comm]
      have hmod0 : 0 ≤ s.amount % d := Int.emod_nonneg _ (ne_of_gt hd)
      have hmod1 : s.amount % d ≤ s.amount := by
        have hqd0 : 0 ≤ s.amount / d * d := mul_nonneg hq0 (le_of_lt hd)
        omega
      have hst1 : ∀ x, isInt64 ((payStep d s).stocks x) := by
        intro x
        rw [hstk]
        by_cases hx : x = d
        · subst hx
          rw [Function.update_same]
          have := hst x
          unfold isInt64 at this ⊢
          omega
        · rw [Function.update_noteq hx]
          exact hst x
      have ha1 : 0 ≤ (payStep d s).amount ∧ (payStep d s).amount < 9223372036854775808 := by
        rw [hamt]
        omega
      obtain ⟨inn, isum⟩ :=
        ih (fun x hx => hpos x (List.mem_cons_of_mem _ hx)) (List.nodup_cons.1 hnd).2
          (payStep d s) ha1 hst1 hnl1
      obtain ⟨_, iout, _⟩ :=
        payLoop_unlimited rest (fun x hx => hpos x (List.mem_cons_of_mem _ hx))
          (List.nodup_cons.1 hnd).2 (payStep d s) ha1 hst1 hnl1
      have hsd : (payStep d s).stocks d = s.stocks d - s.amount / d := by
        rw [hstk, Function.update_same]
      refine ⟨?_, ?_⟩
      · intro x
        have h1 := inn x
        by_cases hx : x = d
        · subst hx
          rw [hsd] at h1
          omega
        · rw [hstk, Function.update_noteq hx] at h1
          exact h1
      · rw [List.map_cons, List.sum_cons, iout d hdr, hsd]
        have hrest : rest.map (fun x => (s.stocks x - (payLoop rest (payStep d s)).stocks x) * x)
            = rest.map (fun x => ((payStep d s).stocks x
                - (payLoop rest (payStep d s)).stocks x) * x) := by
          apply List.map_congr_left
          intro x hx
          have hxd : x ≠ d := fun h => hdr (h ▸ hx)
          rw [hstk, Function.update_noteq hxd]
        have hq1 : s.stocks d - (s.stocks d - s.amount / d) = s.amount / d := by omega
        rw [hrest, isum, hamt, hq1]
        omega

theorem foldl_emod_denominations (a : Int) :
    denominations.foldl (fun a d => a % d) a = 0 := by
  simp [denominations, List.foldl_cons, Int.emod_one]

theorem isInt64_stocks : ∀ d, isInt64 (stocks d) := by
  intro d
  unfold stocks isInt64
  split <;> omega

/-- When no stock limits the pass, `Pay` succeeds and takes out of the stock
the pieces of the unlimited greedy pass. -/
theorem Pay_unlimited (st : Stocks) (p i : Int) (hp : isInt64 p) (hi : isInt64 i)
    (hpos : 0 < p) (hlt : p < i) (hst : ∀ d, isInt64 (st d))
    (hnl : neverLimited denominations ⟨i - p, st, []⟩ = true) :
    (Pay st p i).err = none ∧
      pieces (removed st (Pay st p i).stocks) = greedyPieces denominations (i - p) := by
  have hr : isInt64 (i - p) := by unfold isInt64 at *; omega
  have hw : wrapInt (i - p) = i - p := wrapInt_of_isInt64 hr
  obtain ⟨lsum, _, lamt⟩ := payLoop_unlimited denominations denominations_pos
    denominations_nodup ⟨i - p, st, []⟩
    ⟨by dsimp only; omega, by unfold isInt64 at hr; dsimp only; omega⟩ hst hnl
  dsimp only at lsum lamt
  rw [foldl_emod_denominations] at lamt
  unfold Pay
  rw [if_neg (by omega), hw]
  dsimp only
  rw [if_neg (by omega), if_neg (by rw [lamt]; exact fun h => h rfl)]
  exact ⟨rfl, lsum⟩

/-- When no stock limits the pass, the pieces `Pay` takes out of the stock are
a multiset of the fixed denominations that sums to the change. -/
theorem Pay_unlimited_change (st : Stocks) (p i : Int) (hp : isInt64 p) (hi : isInt64 i)
    (hpos : 0 < p) (hlt : p < i) (hst : ∀ d, isInt64 (st d))
    (hnl : neverLimited denominations ⟨i - p, st, []⟩ = true) :
    isChangeFor (removed st (Pay st p i).stocks) (i - p) := by
  have hr : isInt64 (i - p) := by unfold isInt64 at *; omega
  have hw : wrapInt (i - p) = i - p := wrapInt_of_isInt64 hr
  have ha : 0 ≤ (⟨i - p, st, []⟩ : LoopState).amount ∧
      (⟨i - p, st, []⟩ : LoopState).amount < 9223372036854775808 :=
    ⟨by dsimp only; omega, by unfold isInt64 at hr; dsimp only; omega⟩
  obtain ⟨_, _, lamt⟩ := payLoop_unlimited denominations denominations_pos
    denominations_nodup ⟨i - p, st, []⟩ ha hst hnl
  obtain ⟨lnn, lval⟩ := payLoop_unlimited_value denominations denominations_pos
    denominations_nodup ⟨i - p, st, []⟩ ha hst hnl
  dsimp only at lamt lnn lval
  rw [foldl_emod_denominations] at lamt
  rw [lamt, sub_zero] at lval
  have hstocks : (Pay st p i).stocks = (payLoop denominations ⟨i - p, st, []⟩).stocks := by
    unfold Pay
    rw [if_neg (by omega), hw]
    dsimp only
    rw [if_neg (by omega), if_neg (by rw [lamt]; exact fun h => h rfl)]
  rw [hstocks]
  exact ⟨fun d _ => lnn d, lval⟩

/-- C19: for every amount `a = i - p > 0` and every stock state in which no
denomination's stock limits the greedy pass, `Pay` succeeds and returns `a`
cents, the pieces it takes out of the stock are a multiset of the fixed
denominations 5000, 2000, 1000, 500, 200, 100, 50, 20, 10, 5, 2, 1 that sums
to `a`, and they are optimal in number: no multiset of the fixed denominations
sums to `a` with fewer pieces. -/
theorem Pay_unlimited_fewest_pieces (st : Stocks) (p i : Int) (hp : isInt64 p)
    (hi : isInt64 i) (hpos : 0 < p) (hlt : p < i) (hst : ∀ d, isInt64 (st d))
    (hnl : neverLimited denominations ⟨i - p, st, []⟩ = true) :
    (Pay st p i).err = none ∧
      (Pay st p i).returned.Cents = i - p ∧
      isChangeFor (removed st (Pay st p i).stocks) (i - p) ∧
      ∀ sel : Int → Int, isChangeFor sel (i - p) →
        pieces (removed st (Pay st p i).stocks) ≤ pieces sel := by
  obtain ⟨hok, hpieces⟩ := Pay_unlimited st p i hp hi hpos hlt hst hnl
  refine ⟨hok, (Pay_success_returned st p i hp hi hpos (le_of_lt hlt) hok).1,
    Pay_unlimited_change st p i hp hi hpos hlt hst hnl, ?_⟩
  intro sel hsel
  rw [hpieces, greedyPieces_denominations, ← hsel.2]
  exact levelPieces_sum_le 3 sel denominations denominations_level hsel.1

/-- C19 at the change of 88 cents on the fresh stock. -/
theorem Pay_unlimited_fewest_pieces_witness :
    (isInt64 1 ∧ isInt64 89 ∧ (0 : Int) < 1 ∧ (1 : Int) < 89 ∧ (∀ d, isInt64 (stocks d)) ∧
        neverLimited denominations ⟨89 - 1, stocks, []⟩ = true) ∧
      ((Pay stocks 1 89).err = none ∧
        (Pay stocks 1 89).returned.Cents = 89 - 1 ∧
        isChangeFor (removed stocks (Pay stocks 1 89).stocks) (89 - 1) ∧
        ∀ sel : Int → Int, isChangeFor sel (89 - 1) →
          pieces (removed stocks (Pay stocks 1 89).stocks) ≤ pieces sel) :=
  ⟨⟨by decide, by decide, by decide, by decide, isInt64_stocks, by decide⟩,
    Pay_unlimited_fewest_pieces stocks 1 89 (by decide) (by decide) (by decide) (by decide)
      isInt64_stocks (by decide)⟩

/-- The change of 88 cents could also be given as 88 one cent coins, a multiset
of 88 pieces. -/
theorem eightyEightCents_isChangeFor :
    isChangeFor eightyEightCents (89 - 1) ∧ pieces eightyEightCents = 88 := by
  decide

/-- The change of 88 cents on the fresh stock is given with six pieces: one
each of 50, 20, 10, 5, 2 and 1 cent. -/
theorem Pay_88_cents :
    (Pay stocks 1 89).returned = ⟨88, "88 Cent"⟩ ∧
      pieces (removed stocks (Pay stocks 1 89).stocks) = 6 ∧
      denominations.map (removed stocks (Pay stocks 1 89).stocks)
        = [0, 0, 0, 0, 0, 0, 1, 1, 1, 1, 1, 1] := by
  decide

end cashregister

namespace workers

open orders terminals cashregister

/-! ### Nil orders in the loop of `Worker.Run` -/

/-- Whenever `Get` returns no order with an error that the `switch` neither
answers with `return` nor with `continue`, the iteration panics: `Validate`
returns `ErrOrderNil` for the nil order and `order.Error = err` writes through
the nil pointer. -/
theorem iteration_nil_order_panics (w : World) (e : Option GoError) (t1 : Option Terminal)
    (hget : Terminal.Get w.heap w.terminal = (Outcome.ret (none, e), t1))
    (hsw : switchErr e = SwitchExit.proceed) :
    (iteration w).isPanic = true := by
  unfold iteration
  rw [hget]
  simp only [hsw]
  rfl

/-- The states in which `Get` reports `ErrOrderNil` or `ErrTerminalNil` with
no order: a nil order in the queue, a nil terminal.  On both the case of the
`switch` has no statement, the iteration goes on to `order.Validate()` and
panics at `order.Error = err`. -/
theorem nil_order_crashes_loop :
    (Terminal.Get nilOrderWorld.heap nilOrderWorld.terminal).1
        = Outcome.ret (none, some GoError.ErrOrderNil) ∧
      switchErr (some GoError.ErrOrderNil) = SwitchExit.proceed ∧
      Order.Validate (deref nilOrderWorld.heap none) = some GoError.ErrOrderNil ∧
      (iteration nilOrderWorld).isPanic = true ∧
      (iteration nilOrderWorld).isContinue = false ∧
      (Terminal.Get nilTerminalWorld.heap nilTerminalWorld.terminal).1
        = Outcome.ret (none, some GoError.ErrTerminalNil) ∧
      switchErr (some GoError.ErrTerminalNil) = SwitchExit.proceed ∧
      (iteration nilTerminalWorld).isPanic = true := by
  decide

theorem Pay_valid_err (st : Stocks) (price inserted : Int) (hpos : 0 < price)
    (hge : price ≤ inserted) :
    (Pay st price inserted).err = none ∨
      (Pay st price inserted).err = some GoError.ErrNotEnoughChange := by
  unfold Pay
  rw [if_neg (by omega)]
  dsimp only
  split
  · exact Or.inl rfl
  · split
    · exact Or.inr rfl
    · exact Or.inl rfl

theorem Validate_ok_kind (o : Order) (hv : Order.Validate (some o) = none) :
    ∃ ty, pkg.GetOrderType o.OrderType = some ty := by
  unfold Order.Validate at hv
  cases hty : pkg.GetOrderType o.OrderType with
  | none => simp [hty] at hv
  | some ty => exact ⟨ty, rfl⟩

/-- C22: for every non-nil order on which `Validate` returns nil, the order has
a kind whose price is 30 or 35, `Inserted` is at least that price, and in every
stock state `Pay(price, Inserted)` does not fail with `ErrInvalidPayment`: it
succeeds or fails with `ErrNotEnoughChange`. -/
theorem validated_order_payment (o : Order) (st : Stocks)
    (hv : Order.Validate (some o) = none) :
    ∃ ty, pkg.GetOrderType o.OrderType = some ty ∧
      (ty.Price = 30 ∨ ty.Price = 35) ∧ ty.Price ≤ o.Inserted ∧
      (Pay st ty.Price o.Inserted).err ≠ some GoError.ErrInvalidPayment ∧
      ((Pay st ty.Price o.Inserted).err = none ∨
        (Pay st ty.Price o.Inserted).err = some GoError.ErrNotEnoughChange) := by
  obtain ⟨ty, hty⟩ := Validate_ok_kind o hv
  have hge := Validate_ok_ge o ty hty hv
  have hcases := Pay_valid_err st ty.Price o.Inserted (Price_pos_isInt64 ty).1 hge
  refine ⟨ty, hty, ?_, hge, ?_, hcases⟩
  · cases ty
    · exact Or.inl rfl
    · exact Or.inr rfl
  · rcases hcases with h | h <;> rw [h] <;> simp

/-- The only error one iteration of the worker writes to an order that `Get`
handed over and that passes `Validate` is `ErrNotEnoughChange`. -/
theorem iteration_validated_error (w : World) (p : Nat) (e : Option GoError)
    (t1 : Option Terminal)
    (hget : Terminal.Get w.heap w.terminal = (Outcome.ret (some p, e), t1))
    (hv : Order.Validate (some (w.heap p)) = none) :
    ((iteration w).world.heap p).status.Error = (w.heap p).status.Error ∨
      ((iteration w).world.heap p).status.Error = some GoError.ErrNotEnoughChange := by
  have hsw := switchErr_of_order e (Get_some_order _ _ _ _ _ hget)
  obtain ⟨ty, hty⟩ := Validate_ok_kind (w.heap p) hv
  have hge := Validate_ok_ge (w.heap p) ty hty hv
  have hcases := Pay_valid_err w.stocks ty.Price (w.heap p).Inserted (Price_pos_isInt64 ty).1 hge
  unfold iteration
  rw [hget]
  simp only [hsw, deref, Option.map_some', hv, hty]
  cases hc : Order.IsCancelled (some (w.heap p)) with
  | panics => exact Or.inl rfl
  | blocks => exact Or.inl rfl
  | ret r =>
    obtain ⟨orderCancelled, orderErr⟩ := r
    dsimp only
    split
    · exact Or.inl rfl
    · split
      · exact Or.inl rfl
      · by_cases hR : (w.heap p).status.Ready.length < 1
        · rcases hcases with hp | hp
          · left
            simp [hp, sendReady, setReturned, hR, LoopStep.world]
          · right
            simp [hp, sendReady, setError, hR, LoopStep.world]
        · rcases hcases with hp | hp
          · left
            simp [hp, sendReady, hR, LoopStep.world]
          · right
            simp [hp, sendReady, setError, hR, LoopStep.world]

/-- C22 at the order vegan with 50 inserted, on the fresh stock. -/
theorem validated_order_payment_witness :
    Order.Validate (some (NewOrder false 50 Vegan)) = none ∧
      ∃ ty, pkg.GetOrderType (NewOrder false 50 Vegan).OrderType = some ty ∧
        (ty.Price = 30 ∨ ty.Price = 35) ∧ ty.Price ≤ (NewOrder false 50 Vegan).Inserted ∧
        (Pay stocks ty.Price (NewOrder false 50 Vegan).Inserted).err
          ≠ some GoError.ErrInvalidPayment ∧
        ((Pay stocks ty.Price (NewOrder false 50 Vegan).Inserted).err = none ∨
          (Pay stocks ty.Price (NewOrder false 50 Vegan).Inserted).err
            = some GoError.ErrNotEnoughChange) :=
  ⟨by decide, validated_order_payment (NewOrder false 50 Vegan) stocks (by decide)⟩

/-! ### Iterations that do not panic -/

/-- An iteration that `Get` hands an order with a context does not panic. -/
theorem iteration_order_no_panic (w : World) (p : Nat) (e : Option GoError)
    (t1 : Option Terminal)
    (hget : Terminal.Get w.heap w.terminal = (Outcome.ret (some p, e), t1))
    (hctx : (w.heap p).ctx ≠ none) :
    (iteration w).isPanic = false := by
  have hsw := switchErr_of_order e (Get_some_order _ _ _ _ _ hget)
  unfold iteration
  rw [hget]
  simp only [hsw, deref, Option.map_some']
  cases hv : Order.Validate (some (w.heap p)) with
  | some verr =>
    by_cases hR : (w.heap p).status.Ready.length < 1
    · simp [sendReady, setError, hR, LoopStep.isPanic]
    · simp [sendReady, setError, hR, LoopStep.isPanic]
  | none =>
    obtain ⟨ty, hty⟩ := Validate_ok_kind (w.heap p) hv
    have hge := Validate_ok_ge (w.heap p) ty hty hv
    have hcases := Pay_valid_err w.stocks ty.Price (w.heap p).Inserted
      (Price_pos_isInt64 ty).1 hge
    cases hc : (w.heap p).ctx with
    | none => exact absurd hc hctx
    | some b =>
      cases b with
      | true => simp [Order.IsCancelled, hc, LoopStep.isPanic]
      | false =>
        simp only [Order.IsCancelled, hc, hty]
        by_cases hcl : ((Terminal.IsClosed t1).1 && (Terminal.IsClosed t1).2.isNone) = true
        · simp [hcl, LoopStep.isPanic]
        · by_cases hR : (w.heap p).status.Ready.length < 1
          · rcases hcases with hp | hp
            · simp [hcl, hp, sendReady, setReturned, hR, LoopStep.isPanic]
            · simp [hcl, hp, sendReady, setError, hR, LoopStep.isPanic]
          · rcases hcases with hp | hp
            · simp [hcl, hp, sendReady, hR, LoopStep.isPanic]
            · simp [hcl, hp, sendReady, setError, hR, LoopStep.isPanic]

/-- On a non-nil terminal whose queue holds no nil order, `Get` waits, reports
`ErrTerminalClosed`, panics on an order without a context, or returns an
order: it reports neither `ErrOrderNil` nor `ErrTerminalNil`. -/
theorem Get_cases (h : Heap) (t : Terminal)
    (hq : ∀ ch, t.orders = some ch → none ∉ ch.buf) :
    (∃ t1, Terminal.Get h (some t) = (Outcome.blocks, t1)) ∨
      (∃ t1, Terminal.Get h (some t)
        = (Outcome.ret (none, some GoError.ErrTerminalClosed), t1)) ∨
      (∃ p t1, (h p).ctx = none ∧ Terminal.Get h (some t) = (Outcome.panics, t1)) ∨
      (∃ p e t1, (h p).ctx ≠ none ∧
        Terminal.Get h (some t) = (Outcome.ret (some p, e), t1)) := by
  by_cases hd : t.done = true
  · exact Or.inr (Or.inl ⟨some t, Get_of_done h t hd⟩)
  · have hd1 : t.done = false := by simpa using hd
    cases ho : t.orders with
    | none => exact Or.inl ⟨some t, by simp [Terminal.Get, hd1, ho]⟩
    | some ch =>
      cases hb : ch.buf with
      | nil => exact Or.inl ⟨some t, by simp [Terminal.Get, hd1, ho, hb]⟩
      | cons o rest =>
        cases o with
        | none =>
          exfalso
          apply hq ch ho
          rw [hb]
          exact List.mem_cons_self _ _
        | some p =>
          cases hc : (h p).ctx with
          | none =>
            exact Or.inr (Or.inr (Or.inl ⟨p, _, hc,
              by simp [Terminal.Get, hd1, ho, hb, Order.IsCancelled, hc]; rfl⟩))
          | some b =>
            have hne : (h p).ctx ≠ none := by rw [hc]; simp
            cases b with
            | true =>
              exact Or.inr (Or.inr (Or.inr ⟨p, _, _, hne,
                by simp [Terminal.Get, hd1, ho, hb, Order.IsCancelled, hc]; exact ⟨rfl, rfl⟩⟩))
            | false =>
              exact Or.inr (Or.inr (Or.inr ⟨p, _, _, hne,
                by simp [Terminal.Get, hd1, ho, hb, Order.IsCancelled, hc]; exact ⟨rfl, rfl⟩⟩))

/-- When every order has a context, the worker's terminal is not nil and its
queue holds no nil order, as is the case when the orders are made by `NewOrder`
and queued by `Put`, an iteration of the loop does not panic. -/
theorem iteration_no_panic (w : World) (t : Terminal) (ht : w.terminal = some t)
    (hctx : ∀ p, (w.heap p).ctx ≠ none)
    (hq : ∀ ch, t.orders = some ch → none ∉ ch.buf) :
    (iteration w).isPanic = false := by
  rcases Get_cases w.heap t hq with ⟨t1, hg⟩ | ⟨t1, hg⟩ | ⟨p, t1, hc, _⟩ | ⟨p, e, t1, _, hg⟩
  · unfold iteration
    rw [ht, hg]
    rfl
  · unfold iteration
    rw [ht, hg]
    rfl
  · exact absurd hc (hctx p)
  · rw [← ht] at hg
    exact iteration_order_no_panic w p e t1 hg (hctx p)

end workers

namespace terminals

open orders

/-! ### Terminals of capacity 0 -/

theorem queued_nonneg (t : Option Terminal) : 0 ≤ queued t := by
  cases t with
  | none => exact le_refl _
  | some tt =>
    unfold queued Terminal.len
    dsimp only
    split
    · exact le_refl _
    · exact Int.ofNat_nonneg _

/-- A `Put` of a non-nil order waits whenever the length of the queue equals
the capacity, whatever else holds of the terminal. -/
theorem Put_blocks_of_len_eq_capacity (tt : Terminal) (hlen : tt.len = tt.capacity)
    (p : Nat) (pick : Bool) :
    Terminal.Put (some tt) (some p) pick = (Outcome.blocks, some tt) := by
  simp [Terminal.Put, hlen]

/-- C23: `NewTerminal(0)` returns a terminal without error, and in every state
that calls of `Put`, `Get` and `Close` make out of it, open or closed, the
queue length is 0, the capacity, so that a `Put` of a non-nil order takes the
waiting branch and inserts nothing. -/
theorem Put_capacity_zero_never_inserts (ops : List TerminalOp) (p : Nat) (pick : Bool) :
    (NewTerminal 0).2 = none ∧
      (NewTerminal 0).1 = some (openTerminal 0 []) ∧
      queued (runOps (NewTerminal 0).1 ops) = 0 ∧
      Terminal.Put (runOps (NewTerminal 0).1 ops) (some p) pick
        = (Outcome.blocks, runOps (NewTerminal 0).1 ops) := by
  have hm := madeBy_runOps 0 (le_refl _) ops _ (madeBy_NewTerminal 0 (le_refl _))
  have hq : queued (runOps (NewTerminal 0).1 ops) = 0 :=
    le_antisymm (madeBy_queued_le 0 (le_refl _) _ hm) (queued_nonneg _)
  exact ⟨by decide, by decide, hq, madeBy_Put_full 0 _ hm hq p pick⟩

/-- Runs on the terminal of capacity 0: `Put` waits on the fresh terminal, after
a `Close`, and after a `Get` that waits for an order. -/
theorem capacity_zero_runs :
    Terminal.Put (NewTerminal 0).1 (some 0) true = (Outcome.blocks, (NewTerminal 0).1) ∧
      (Terminal.Get putGetHeap (NewTerminal 0).1).1 = Outcome.blocks ∧
      Terminal.Put (Terminal.Get putGetHeap (NewTerminal 0).1).2 (some 0) false
        = (Outcome.blocks, (NewTerminal 0).1) ∧
      Terminal.Put (Terminal.Close (NewTerminal 0).1).2 (some 0) true
        = (Outcome.blocks, (Terminal.Close (NewTerminal 0).1).2) := by
  decide

end terminals

end Currywurst
